import Mathlib

/-!
# Wanderer core engine: verification of spec claims

Shallow embedding of the coordination core of the Wanderer media vault
(Rust sources under `src/src-tauri/src/`) and proofs settling the claims
about it.  Rust byte strings are modelled as `List Nat`, SQL `NULL`able
columns as `Option`, and the SQLite tables as Lean lists of rows.  Each
definition is translated from the named Rust function; external crates
(AES-256-GCM, Argon2, the perceptual-hash container) are modelled as
explicit function parameters whose contracts appear as hypotheses of the
theorems that need them.
-/

namespace Wanderer

/-! ## Data model

A reduced `MediaItem` row (`database.rs`, struct `MediaItem` plus the
`phash` column read by `find_duplicates`) with exactly the columns the
verified operations touch.  `phash` is modelled as the decoded 64-bit
perceptual-hash value (the DB stores a base64/hex rendering of it;
`hamming_distance` decodes it back and XOR/popcounts the 64-bit values). -/
structure MediaRow where
  id : Int
  file_path : String
  telegram_media_id : Option String
  created_at : Int
  is_deleted : Option Bool
  deleted_at : Option Int
  is_cloud_only : Option Bool
  phash : Option Nat
  deriving Repr, DecidableEq, Inhabited

/-! ## C6 — upload queue enqueue (`Database::add_to_queue`, database.rs) -/

/-- A row of the `upload_queue` table. -/
structure QueueRow where
  file_path : String
  status : String
  added_at : Int
  deriving Repr, DecidableEq

/-- `Database::add_to_queue`: count rows with the same `file_path` whose
status is `pending` or `uploading`; if any exists, return without
inserting, otherwise insert a fresh `pending` row. -/
def addToQueue (path : String) (now : Int) (queue : List QueueRow) : List QueueRow :=
  if queue.any (fun r => r.file_path == path && (r.status == "pending" || r.status == "uploading"))
  then queue
  else queue ++ [⟨path, "pending", now⟩]

/-! ## C2 — rate-limit parsing (`parse_flood_wait`, telegram.rs)

Rust strings are modelled as their `List Char`; for these ASCII patterns
the Rust byte offsets of `str::find` coincide with the char offsets used
here. -/

/-- `pat` is a prefix of the text. -/
def isPrefixL : List Char → List Char → Bool
  | [], _ => true
  | _ :: _, [] => false
  | p :: ps, t :: ts => p == t && isPrefixL ps ts

/-- Rust `str::find(pattern)`: index of the first occurrence. -/
def findSub (pat : List Char) : List Char → Option Nat
  | [] => if pat = [] then some 0 else none
  | c :: rest => if isPrefixL pat (c :: rest) then some 0 else (findSub pat rest).map (· + 1)

/-- Rust `str::contains(pattern)`. -/
def containsSub (pat text : List Char) : Bool := (findSub pat text).isSome

/-- Value of a digit string, most significant first. -/
def digitsVal (ds : List Char) : Nat := ds.foldl (fun acc c => acc * 10 + (c.toNat - 48)) 0

/-- The digit part of `u64::from_str`: one or more ASCII digits, failing
on overflow past `u64`. -/
def parseU64Digits (ds : List Char) : Option Nat :=
  if ds.isEmpty then none
  else if ds.all (·.isDigit) then
    if digitsVal ds < 2 ^ 64 then some (digitsVal ds) else none
  else none

/-- Rust `str::parse::<u64>()`: an optional leading `+`, then one or more
ASCII digits, failing on overflow past `u64`. -/
def parseU64 : List Char → Option Nat
  | [] => none
  | c :: rest => if c == '+' then parseU64Digits rest else parseU64Digits (c :: rest)

/-- `chars().take_while(|c| c.is_ascii_digit())`. -/
def takeDigits (cs : List Char) : List Char := cs.takeWhile (·.isDigit)

/-- Rust `str::trim()`. -/
def trimChars (cs : List Char) : List Char :=
  ((cs.dropWhile (·.isWhitespace)).reverse.dropWhile (·.isWhitespace)).reverse

/-- Rust `str::len()`: the UTF-8 byte length. -/
def utf8Len (cs : List Char) : Nat := cs.foldl (fun n c => n + c.utf8Size) 0

/-- `parse_flood_wait` (telegram.rs): try `FLOOD_WAIT (N)`, then
`FLOOD_WAIT_N`, then `wait of N seconds`, all only when the string
contains `FLOOD_WAIT`; default to 60 when it does but no number parses. -/
def parseFloodWait (err : List Char) : Option Nat :=
  if containsSub "FLOOD_WAIT".data err then
    match (findSub "FLOOD_WAIT (".data err).bind (fun start =>
        let rest := err.drop (start + 12)
        (findSub [')'] rest).bind (fun en => parseU64 (trimChars (rest.take en)))) with
    | some secs => some secs
    | none =>
      match (findSub "FLOOD_WAIT_".data err).bind (fun idx =>
          parseU64 (takeDigits (err.drop (idx + 11)))) with
      | some secs => some secs
      | none =>
        match (findSub "wait of ".data err).bind (fun idx =>
            parseU64 (takeDigits (err.drop (idx + 8)))) with
        | some secs => some secs
        | none => some 60
  else none

/-- `parse_flood_wait` on a Rust `&str`. -/
def parseFloodWaitS (err : String) : Option Nat := parseFloodWait err.data

/-! ## C7 — trash retention (`Database::empty_old_trash`, database.rs) -/

/-- The SQL predicate `is_deleted = 1 AND deleted_at < now - 30*24*60*60`
(a `NULL` `deleted_at` fails the comparison, as in SQLite). -/
def isOldTrash (now : Int) (r : MediaRow) : Bool :=
  r.is_deleted == some true &&
    (match r.deleted_at with
     | some t => decide (t < now - 30 * 24 * 60 * 60)
     | none => false)

/-- `Database::empty_old_trash`: `DELETE FROM media WHERE is_deleted = 1
AND deleted_at < ?1` with `?1 = now - 30 days`; returns the surviving
rows and the count of deleted ones. -/
def emptyOldTrash (now : Int) (rows : List MediaRow) : List MediaRow × Nat :=
  (rows.filter (fun r => !isOldTrash now r), rows.countP (fun r => isOldTrash now r))

/-! ## C4 — cloud-only reconciliation
(`Database::reconcile_cloud_only_flags`, database.rs) -/

/-- The candidate `WHERE` clause of `reconcile_cloud_only_flags`:
`(is_deleted = 0 OR is_deleted IS NULL) AND telegram_media_id IS NOT NULL
AND telegram_media_id != '' AND (is_cloud_only IS NULL OR is_cloud_only = 0)`. -/
def reconcileCandidate (r : MediaRow) : Bool :=
  (r.is_deleted == some false || r.is_deleted == none) &&
    (match r.telegram_media_id with
     | some s => !(s == "")
     | none => false) &&
    (r.is_cloud_only == none || r.is_cloud_only == some false)

/-- The per-row effect of `reconcile_cloud_only_flags`: a candidate row
whose local file is absent gets `is_cloud_only = 1`; every other row is
untouched.  `fsExists` models `Path::exists`. -/
def reconcileRow (fsExists : String → Bool) (r : MediaRow) : MediaRow :=
  if reconcileCandidate r && !fsExists r.file_path
  then { r with is_cloud_only := some true }
  else r

/-- `Database::reconcile_cloud_only_flags`: update each candidate row with
a missing local file (rows are updated by primary key; ids are unique),
returning the new table and the number of rows updated. -/
def reconcileCloudOnlyFlags (fsExists : String → Bool) (rows : List MediaRow) :
    List MediaRow × Nat :=
  (rows.map (reconcileRow fsExists),
   rows.countP (fun r => reconcileCandidate r && !fsExists r.file_path))

/-! ## C1/C9/C10 — crypto vault (security/mod.rs)

Byte strings are `List Nat`.  The AES-256-GCM primitive of the `aes_gcm`
crate is an external dependency: it enters as a pair of function
parameters `enc`/`dec` (key, nonce, aad, data), and each theorem states
the AEAD contract it relies on (ciphertext length, decryption of a
ciphertext under its key, rejection under another key) as hypotheses.
Likewise Argon2id (`argon2` crate) enters as a derivation function `kdf`
and a PHC hash/verify pair. -/

/-- `FILE_MAGIC = b"WBENC1"`. -/
def fileMagic : List Nat := [87, 66, 69, 78, 67, 49]

/-- `DEFAULT_CHUNK_SIZE = 1024 * 1024`. -/
def defaultChunkSize : Nat := 1024 * 1024

/-- `u32::to_le_bytes`. -/
def le32 (n : Nat) : List Nat :=
  [n % 256, n / 256 % 256, n / 65536 % 256, n / 16777216 % 256]

/-- `u32::from_le_bytes`. -/
def fromLE32 (l : List Nat) : Nat :=
  l.getD 0 0 + 256 * l.getD 1 0 + 65536 * l.getD 2 0 + 16777216 * l.getD 3 0

/-- `derive_chunk_nonce`: `base_nonce[0..8] || chunk_idx.to_le_bytes()`. -/
def chunkNonce (base : List Nat) (idx : Nat) : List Nat := base.take 8 ++ le32 idx

/-- The chunk loop of `encrypt_file`: split the plaintext into
`DEFAULT_CHUNK_SIZE` chunks and emit each as
`ciphertext_len_le || ciphertext`, with per-chunk nonce and AAD derived
from the chunk index. -/
def encryptChunks (enc : List Nat → List Nat → List Nat → List Nat → List Nat)
    (key base : List Nat) (idx : Nat) (pt : List Nat) : List Nat :=
  if h : pt.isEmpty then []
  else
    le32 (enc key (chunkNonce base idx) (le32 idx) (pt.take defaultChunkSize)).length ++
      enc key (chunkNonce base idx) (le32 idx) (pt.take defaultChunkSize) ++
      encryptChunks enc key base (idx + 1) (pt.drop defaultChunkSize)
termination_by pt.length
decreasing_by
  have hne : pt ≠ [] := by simpa [List.isEmpty_iff] using h
  have hpos : 0 < pt.length := List.length_pos.mpr hne
  simp only [List.length_drop, defaultChunkSize]
  omega

/-- `encrypt_file`: magic, version byte, chunk size, base nonce, then the
chunk stream. -/
def encryptFile (enc : List Nat → List Nat → List Nat → List Nat → List Nat)
    (key base pt : List Nat) : List Nat :=
  fileMagic ++ [1] ++ le32 defaultChunkSize ++ base ++ encryptChunks enc key base 0 pt

/-- The chunk loop of `decrypt_file`.  Errors carry the plaintext bytes
already written to the output file when the failure occurred (`read_exact`
of the length prefix reports `UnexpectedEof` when fewer than 4 bytes
remain, which the source treats as normal end of stream). -/
def decryptChunks (dec : List Nat → List Nat → List Nat → List Nat → Option (List Nat))
    (key base : List Nat) (chunkSize : Nat) (idx : Nat) (acc : List Nat) (rest : List Nat) :
    Except (String × List Nat) (List Nat) :=
  if h4 : rest.length < 4 then .ok acc
  else if fromLE32 (rest.take 4) < 16 then .error ("Invalid encrypted chunk length", acc)
  else if (rest.drop 4).length < fromLE32 (rest.take 4) then
    .error ("unexpected end of file", acc)
  else
    match dec key (chunkNonce base idx) (le32 idx) ((rest.drop 4).take (fromLE32 (rest.take 4))) with
    | none => .error ("Chunk decryption failed at chunk " ++ toString idx, acc)
    | some pt =>
      if chunkSize < pt.length then .error ("Invalid plaintext chunk length", acc)
      else decryptChunks dec key base chunkSize (idx + 1) (acc ++ pt)
        ((rest.drop 4).drop (fromLE32 (rest.take 4)))
termination_by rest.length
decreasing_by
  simp only [List.length_drop]
  omega

/-- `decrypt_file`: parse the header, then decrypt the chunk stream. -/
def decryptFile (dec : List Nat → List Nat → List Nat → List Nat → Option (List Nat))
    (key file : List Nat) : Except (String × List Nat) (List Nat) :=
  if file.length < 6 then .error ("unexpected end of file", [])
  else if file.take 6 ≠ fileMagic then .error ("Input is not a Wander(er) encrypted file", [])
  else if (file.drop 6).length < 1 then .error ("unexpected end of file", [])
  else if (file.drop 6).headD 0 ≠ 1 then .error ("Unsupported encrypted file version", [])
  else if (file.drop 7).length < 4 then .error ("unexpected end of file", [])
  else if fromLE32 ((file.drop 7).take 4) = 0 ∨ 8 * 1024 * 1024 < fromLE32 ((file.drop 7).take 4)
  then .error ("Invalid encrypted chunk size", [])
  else if (file.drop 11).length < 12 then .error ("unexpected end of file", [])
  else decryptChunks dec key ((file.drop 11).take 12) (fromLE32 ((file.drop 7).take 4)) 0 []
    ((file.drop 11).drop 12)

/-! ### C9/C10 — vault bundle (security/mod.rs, lib.rs) -/

/-- `EncryptionMode`. -/
inductive EncryptionMode where
  | unencrypted
  | encrypted
  deriving Repr, DecidableEq

/-- `WrappedMasterKey` (the base64 renderings are kept as raw bytes; the
base64 codec is a bijection the model elides). -/
structure WrappedMasterKey where
  salt : List Nat
  nonce : List Nat
  ciphertext : List Nat
  deriving Repr, DecidableEq

/-- `RecoveryData`. -/
structure RecoveryData where
  verifier_phc : String
  wrap : WrappedMasterKey
  deriving Repr, DecidableEq

/-- `SecurityBundle`. -/
structure SecurityBundle where
  mode : EncryptionMode
  key_id : String
  created_at : Int
  passphrase_wrap : Option WrappedMasterKey
  recovery : Option RecoveryData
  deriving Repr, DecidableEq

/-- Rust `str::as_bytes`, modelled as the code points (identical to the
UTF-8 bytes on ASCII input, and still injective beyond it). -/
def strBytes (s : String) : List Nat := s.data.map Char.toNat

/-- `wrap_master_key_with_secret`: derive a key from the secret and a
fresh salt, then AEAD-seal the master key under a fresh nonce (no AAD). -/
def wrapMasterKey (kdf : List Nat → List Nat → List Nat)
    (enc : List Nat → List Nat → List Nat → List Nat → List Nat)
    (secret salt nonce mk : List Nat) : WrappedMasterKey :=
  { salt := salt, nonce := nonce, ciphertext := enc (kdf secret salt) nonce [] mk }

/-- `unwrap_master_key_with_secret`. -/
def unwrapMasterKey (kdf : List Nat → List Nat → List Nat)
    (dec : List Nat → List Nat → List Nat → List Nat → Option (List Nat))
    (secret : List Nat) (w : WrappedMasterKey) : Except String (List Nat) :=
  if w.salt.length ≠ 16 then .error "Invalid wrapped key salt length"
  else if w.nonce.length ≠ 12 then .error "Invalid wrapped key nonce length"
  else
    match dec (kdf secret w.salt) w.nonce [] w.ciphertext with
    | none => .error "Failed to unwrap key. Secret may be invalid"
    | some pt =>
      if pt.length ≠ 32 then .error "Invalid unwrapped master key length" else .ok pt

/-- `SecurityBundle::new_encrypted`.  The OS RNG outputs (master key,
wrap salts and nonces, recovery key, key id) are explicit inputs;
`hashRK` is the Argon2id PHC hash of `hash_recovery_key` (which hashes
the trimmed recovery key). -/
def newEncrypted (kdf : List Nat → List Nat → List Nat)
    (enc : List Nat → List Nat → List Nat → List Nat → List Nat)
    (hashRK : List Char → String) (passphrase : String) (mk s1 n1 s2 n2 : List Nat)
    (recoveryKey keyId : String) (now : Int) :
    Except String (SecurityBundle × String × List Nat) :=
  if utf8Len (trimChars passphrase.data) < 8 then
    .error "Passphrase must be at least 8 characters"
  else
    .ok ({ mode := .encrypted, key_id := keyId, created_at := now,
           passphrase_wrap := some (wrapMasterKey kdf enc (strBytes passphrase) s1 n1 mk),
           recovery := some { verifier_phc := hashRK (trimChars recoveryKey.data),
                              wrap := wrapMasterKey kdf enc (strBytes recoveryKey) s2 n2 mk } },
         recoveryKey, mk)

/-- `SecurityBundle::unlock_with_passphrase`. -/
def unlockWithPassphrase (kdf : List Nat → List Nat → List Nat)
    (dec : List Nat → List Nat → List Nat → List Nat → Option (List Nat))
    (b : SecurityBundle) (passphrase : String) : Except String (List Nat) :=
  if b.mode ≠ .encrypted then .error "Encryption mode is not enabled"
  else
    match b.passphrase_wrap with
    | none => .error "Missing passphrase key wrap"
    | some w => unwrapMasterKey kdf dec (strBytes passphrase) w

/-- `SecurityBundle::recover_and_rewrap`; `verifyRK` is the Argon2id PHC
verification of `verify_recovery_key` (applied to the trimmed key). -/
def recoverAndRewrap (kdf : List Nat → List Nat → List Nat)
    (enc : List Nat → List Nat → List Nat → List Nat → List Nat)
    (dec : List Nat → List Nat → List Nat → List Nat → Option (List Nat))
    (verifyRK : List Char → String → Bool) (b : SecurityBundle)
    (recoveryKey newPassphrase : String) (s3 n3 : List Nat) :
    Except String (SecurityBundle × List Nat) :=
  if b.mode ≠ .encrypted then .error "Encryption mode is not enabled"
  else
    match b.recovery with
    | none => .error "Missing recovery data"
    | some rd =>
      if verifyRK (trimChars recoveryKey.data) rd.verifier_phc = false then
        .error "Invalid recovery key"
      else
        match unwrapMasterKey kdf dec (strBytes recoveryKey) rd.wrap with
        | .error e => .error e
        | .ok mk =>
          let b2 := { b with
            passphrase_wrap := some (wrapMasterKey kdf enc (strBytes newPassphrase) s3 n3 mk) }
          .ok (b2, mk)

/-- The vault-relevant application state of `initialize_encryption`
(lib.rs): the persisted bundle and the in-memory master key. -/
structure VaultState where
  storedBundle : Option SecurityBundle
  masterKey : Option (List Nat)
  deriving Repr, DecidableEq

/-- Whether a stored bundle is in encrypted mode. -/
def bundleIsEncrypted : Option SecurityBundle → Bool
  | some b => b.mode == EncryptionMode.encrypted
  | none => false

/-- `initialize_encryption` (lib.rs): refuse if encryption is already
enabled, otherwise build a bundle with `new_encrypted`; only on success
are the bundle persisted, the master key installed and the recovery key
returned. -/
def initializeEncryption (kdf : List Nat → List Nat → List Nat)
    (enc : List Nat → List Nat → List Nat → List Nat → List Nat)
    (hashRK : List Char → String) (st : VaultState) (passphrase : String)
    (mk s1 n1 s2 n2 : List Nat) (recoveryKey keyId : String) (now : Int) :
    Except String (VaultState × String) :=
  if bundleIsEncrypted st.storedBundle then .error "Encryption is already enabled"
  else
    match newEncrypted kdf enc hashRK passphrase mk s1 n1 s2 n2 recoveryKey keyId now with
    | .error e => .error e
    | .ok (bundle, rk, mkOut) =>
      .ok ({ storedBundle := some bundle, masterKey := some mkOut }, rk)

/-! ### A concrete AEAD/KDF instance for witnesses: the tag is the first
16 bytes of the key, so same-key decryption always succeeds and the two
fixed witness keys reject each other. -/

def toyEnc (key _nonce _aad msg : List Nat) : List Nat := msg ++ key.take 16

def toyDec (key _nonce _aad ct : List Nat) : Option (List Nat) :=
  if 16 ≤ ct.length ∧ ct.drop (ct.length - 16) = key.take 16
  then some (ct.take (ct.length - 16)) else none

def toyKdf (secret salt : List Nat) : List Nat := (secret ++ salt) ++ List.replicate 32 0

def toyHash (cs : List Char) : String := String.mk cs

def toyVerify (cs : List Char) (v : String) : Bool := String.mk cs == v

/-! ## C5 — perceptual-hash duplicate grouping
(`Database::find_duplicates` / `hamming_distance`, database.rs)

`phash` values are the decoded 64-bit hashes; `hamming_distance` (via the
`image_hasher` crate on its base64 rendering, or the hex fallback)
XORs the two 64-bit values and counts the one bits. -/

/-- `u64::count_ones`. -/
def popcount64 (x : Nat) : Nat := (List.range 64).foldl (fun acc k => acc + x / 2 ^ k % 2) 0

/-- `hamming_distance` on the decoded 64-bit hashes. -/
def hammingDist (h1 h2 : Nat) : Nat := popcount64 (Nat.xor h1 h2)

/-- Stable insertion into a sorted list (skips every element `b` with
`le b a`). -/
def insertSorted {α : Type} (le : α → α → Bool) (a : α) : List α → List α
  | [] => [a]
  | b :: l => if le b a then b :: insertSorted le a l else a :: b :: l

/-- Stable comparison sort, modelling `Vec::sort_by` / `sort_by_key` (the
source's sorts; any stable sort yields the same list for these keys). -/
def isortBy {α : Type} (le : α → α → Bool) : List α → List α
  | [] => []
  | a :: l => insertSorted le a (isortBy le l)

/-! ### The union-find of `find_duplicates`.

The parent array is a `List Nat`; `find` carries a fuel argument (the
array length suffices, as proved below) and returns the compressed array
with the root, exactly as the recursive `find` with path compression in
the source. -/

/-- One parent-pointer step (`parent[x]`; out-of-range indices are their
own parent, which the source never exercises). -/
def stepP (p : List Nat) (x : Nat) : Nat := p.getD x x

/-- Iterated parent steps. -/
def iterS (p : List Nat) : Nat → Nat → Nat
  | 0, x => x
  | j + 1, x => iterS p j (stepP p x)

/-- `parent[x] == x`. -/
def isRootP (p : List Nat) (x : Nat) : Prop := stepP p x = x

instance (p : List Nat) (x : Nat) : Decidable (isRootP p x) :=
  inferInstanceAs (Decidable (stepP p x = x))

/-- The root of `x`, by fuelled iteration. -/
def rootF : Nat → List Nat → Nat → Nat
  | 0, _, x => x
  | f + 1, p, x => if stepP p x = x then x else rootF f p (stepP p x)

/-- The root of `x` with the fuel `find` actually needs. -/
def rootD (p : List Nat) (x : Nat) : Nat := rootF p.length p x

/-- Well-formedness of a parent array: in-range entries stay in range and
every chain reaches a root. -/
def WFP (p : List Nat) : Prop :=
  (∀ x, x < p.length → stepP p x < p.length) ∧ ∀ x, ∃ k, isRootP p (iterS p k x)

/-- `find` with path compression: returns the updated parent array and
the root. -/
def findF : Nat → List Nat → Nat → List Nat × Nat
  | 0, p, x => (p, x)
  | f + 1, p, x =>
    if stepP p x = x then (p, x)
    else
      let r := findF f p (stepP p x)
      (r.1.set x r.2, r.2)

/-- `union` by rank. -/
def unionF (p rank : List Nat) (a b : Nat) : List Nat × List Nat :=
  let fa := findF p.length p a
  let fb := findF fa.1.length fa.1 b
  if fa.2 = fb.2 then (fb.1, rank)
  else if rank.getD fa.2 0 < rank.getD fb.2 0 then (fb.1.set fa.2 fb.2, rank)
  else if rank.getD fb.2 0 < rank.getD fa.2 0 then (fb.1.set fb.2 fa.2, rank)
  else (fb.1.set fb.2 fa.2, rank.set fa.2 (rank.getD fa.2 0 + 1))

/-- The double loop `for i in 0..n, for j in i+1..n`. -/
def allPairs (n : Nat) : List (Nat × Nat) :=
  (List.range n).bind (fun i => (List.range' (i + 1) (n - (i + 1))).map (fun j => (i, j)))

/-- Union every pair whose Hamming distance is within the threshold. -/
def processPairs (distB : Nat → Nat → Bool) :
    List (Nat × Nat) → List Nat × List Nat → List Nat × List Nat
  | [], st => st
  | ij :: rest, st =>
    processPairs distB rest (if distB ij.1 ij.2 then unionF st.1 st.2 ij.1 ij.2 else st)

/-- The candidate rows of `find_duplicates`:
`WHERE phash IS NOT NULL AND is_deleted = 0 ORDER BY created_at ASC`. -/
def dupCandidates (rows : List MediaRow) : List MediaRow :=
  isortBy (fun r s => decide (r.created_at ≤ s.created_at))
    (rows.filter (fun r => r.phash.isSome && (r.is_deleted == some false)))

/-- The 64-bit hash of candidate `i`. -/
def candHash (cs : List MediaRow) (i : Nat) : Nat := ((cs.getD i default).phash).getD 0

/-- `hamming_distance ≤ PHASH_DISTANCE_THRESHOLD` on candidate indices. -/
def distLE10 (cs : List MediaRow) (i j : Nat) : Bool :=
  hammingDist (candHash cs i) (candHash cs j) ≤ 10

/-- The final parent array after unioning all close pairs, from the
initial `parent = (0..n).collect()`, `rank = vec![0; n]`. -/
def dupUF (cs : List MediaRow) : List Nat :=
  (processPairs (distLE10 cs) (allPairs cs.length)
    (List.range cs.length, List.replicate cs.length 0)).1

/-- `grouped.entry(root).or_default().push(idx)` on an association list
keyed by root (the `HashMap` is modelled in first-insertion order). -/
def pushAL (m : List (Nat × List Nat)) (r i : Nat) : List (Nat × List Nat) :=
  match m with
  | [] => [(r, [i])]
  | (k, l) :: rest => if k = r then (k, l ++ [i]) :: rest else (k, l) :: pushAL rest r i

/-- The grouping loop `for idx in 0..n { grouped[find(&mut parent, idx)]
.push(idx) }`, threading the (still compressing) parent array. -/
def groupFold : List Nat → List Nat → List (Nat × List Nat) → List Nat × List (Nat × List Nat)
  | [], p, m => (p, m)
  | i :: rest, p, m => groupFold rest (findF p.length p i).1 (pushAL m (findF p.length p i).2 i)

/-- The pure shadow of the grouping loop: push each index under its root,
for a fixed root function. -/
def pushSeq (root : Nat → Nat) : List Nat → List (Nat × List Nat) → List (Nat × List Nat)
  | [], m => m
  | i :: rest, m => pushSeq root rest (pushAL m (root i) i)

/-- The index-level groups of `find_duplicates`: group candidate indices
by root and keep the groups of size ≥ 2 (`n < 2` short-circuits first). -/
def dupGroupsIdx (cs : List MediaRow) : List (List Nat) :=
  if cs.length < 2 then []
  else
    ((groupFold (List.range cs.length) (dupUF cs) []).2.map Prod.snd).filter
      (fun g => 1 < g.length)

/-- `find_duplicates`: materialize the index groups as rows, sort each
group by `created_at`, and sort the groups by size descending. -/
def findDuplicates (rows : List MediaRow) : List (List MediaRow) :=
  isortBy (fun g h => decide (h.length ≤ g.length))
    ((dupGroupsIdx (dupCandidates rows)).map (fun g =>
      isortBy (fun r s => decide (r.created_at ≤ s.created_at))
        (g.map (fun i => (dupCandidates rows).getD i default))))

/-- Chains of close hops: the equivalence closure of an edge relation on
candidate indices. -/
inductive Linked (E : Nat → Nat → Prop) : Nat → Nat → Prop
  | base {x y : Nat} : E x y → Linked E x y
  | refl (x : Nat) : Linked E x x
  | symm {x y : Nat} : Linked E x y → Linked E y x
  | trans {x y z : Nat} : Linked E x y → Linked E y z → Linked E x z

/-- The claim's hop relation: two candidate indices within Hamming
distance 10. -/
def closeIdx (cs : List MediaRow) (i j : Nat) : Prop :=
  i < cs.length ∧ j < cs.length ∧ hammingDist (candHash cs i) (candHash cs j) ≤ 10

/-! ## C8 — greedy face clustering
(`Database::store_face_embedding` / `match_face_to_person`, database.rs)

Embeddings are stored as little-endian f32 byte blobs; the blob codec is
lossless, so faces carry their vectors directly.  `cosine_similarity`
computes in f32 with square roots; the numeric value is abstracted as a
similarity function `sim` over exact rationals, quantified in the
theorems. -/

/-- A row of `persons`. -/
structure Person where
  pid : Nat
  name : String
  cover_face_id : Option Nat
  deriving Repr, DecidableEq

/-- A row of `faces` (bounding box and media id elided). -/
structure Face where
  fid : Nat
  embedding : Option (List ℚ)
  person_id : Option Nat
  deriving Repr, DecidableEq

/-- The tables touched by face clustering. -/
structure FaceDB where
  persons : List Person
  faces : List Face
  deriving Repr, DecidableEq

/-- The join of `match_face_to_person`: each person's id paired with its
cover face's embedding, for persons whose cover face has one
(`SELECT p.id, f.embedding FROM persons p JOIN faces f ON
p.cover_face_id = f.rowid WHERE f.embedding IS NOT NULL`). -/
def coverEmbeddings (db : FaceDB) : List (Nat × List ℚ) :=
  db.persons.filterMap (fun p =>
    p.cover_face_id.bind (fun cf =>
      (db.faces.find? (fun f => f.fid == cf)).bind (fun f =>
        f.embedding.map (fun e => (p.pid, e)))))

/-- The argmax loop of `match_face_to_person`: strict improvement over
the running `max_score`, started at `(None, -1.0)`. -/
def bestMatchFold (s : List ℚ → ℚ) (l : List (Nat × List ℚ)) (acc : Option Nat × ℚ) :
    Option Nat × ℚ :=
  match l with
  | [] => acc
  | pe :: rest => bestMatchFold s rest (if acc.2 < s pe.2 then (some pe.1, s pe.2) else acc)

/-- `match_face_to_person`: if the best cover similarity exceeds the 0.5
threshold, return that person; otherwise insert a new person and rename
it `Person {id}` (`nextId` models the rowid SQLite assigns).  Returns the
person id and the updated `persons` table. -/
def matchFaceToPerson (sim : List ℚ → List ℚ → ℚ) (db : FaceDB) (emb : List ℚ)
    (nextId : Nat) : Nat × List Person :=
  let best := bestMatchFold (fun e => sim emb e) (coverEmbeddings db) (none, -1)
  if 1 / 2 < best.2 then
    (best.1.getD 0, db.persons)
  else
    (nextId, db.persons ++ [{ pid := nextId, name := "Person " ++ toString nextId,
                              cover_face_id := none }])

/-- `store_face_embedding`: cluster, write the embedding and person id
onto the face row, and set the person's cover to this face when it has
none (persons are updated by primary key; ids are unique). -/
def storeFaceEmbedding (sim : List ℚ → List ℚ → ℚ) (db : FaceDB) (faceId : Nat)
    (emb : List ℚ) (nextId : Nat) : FaceDB × Nat :=
  let pid := (matchFaceToPerson sim db emb nextId).1
  let persons2 := (matchFaceToPerson sim db emb nextId).2
  let faces2 := db.faces.map (fun f =>
    if f.fid == faceId then { f with embedding := some emb, person_id := some pid } else f)
  let persons3 := persons2.map (fun p =>
    if p.pid == pid && p.cover_face_id == none
    then { p with cover_face_id := some faceId } else p)
  (({ persons := persons3, faces := faces2 } : FaceDB), pid)

/-- Exact dot product, a concrete similarity instance for witnesses. -/
def dotQ (a b : List ℚ) : ℚ := (a.zip b).foldl (fun acc p => acc + p.1 * p.2) 0

/-! ## Association lists

Rust `HashMap`s are modelled as association lists: `lookupAL` is
`HashMap::get` (keys are unique in any real map, which the theorems assume
via `Nodup` hypotheses on the key lists), `insertAL` is `HashMap::insert`
(replace in place, or append for a fresh key). -/

def lookupAL {κ α : Type} [DecidableEq κ] : List (κ × α) → κ → Option α
  | [], _ => none
  | (k, v) :: rest, key => if k = key then some v else lookupAL rest key

def insertAL {κ α : Type} [DecidableEq κ] : List (κ × α) → κ → α → List (κ × α)
  | [], key, v => [(key, v)]
  | (k, w) :: rest, key, v =>
    if k = key then (k, v) :: rest else (k, w) :: insertAL rest key v


/-! ## C10 shared string model

Rust string comparison (`String: Ord`) is lexicographic on UTF-8 bytes,
which coincides with lexicographic comparison of the code points. -/

/-- Lexicographic strict order on char lists by code point, as Rust's
`str` ordering. -/
def ltChars : List Char → List Char → Bool
  | [], [] => false
  | [], _ :: _ => true
  | _ :: _, [] => false
  | a :: as, b :: bs =>
    if a.toNat < b.toNat then true
    else if b.toNat < a.toNat then false
    else ltChars as bs

/-- Rust `String` `<`. -/
def ltS (a b : String) : Bool := ltChars a.data b.data


/-! ## C3 — sync-manifest last-write-wins merge
(`SyncManifest::merge_from`, sync_manifest.rs) -/

/-- `MediaMetadata` of the sync manifest. -/
structure MediaMetadata where
  is_favorite : Bool
  rating : Int
  albums : List String
  last_modified : String
  deriving Repr, DecidableEq

/-- `AlbumMetadata` of the sync manifest. -/
structure AlbumMetadata where
  name : String
  created : String
  deriving Repr, DecidableEq

/-- The sync manifest (`SyncManifest`, sync_manifest.rs); the two
`HashMap`s are association lists keyed by content digest / normalized
album name. -/
structure SyncManifest where
  version : Nat
  last_updated : String
  device_id : String
  media : List (String × MediaMetadata)
  albums : List (String × AlbumMetadata)
  deriving Repr, DecidableEq

/-- The media half of `merge_from`: for each remote entry, remote wins
iff `remote.last_modified > local.last_modified`; digests unknown locally
are inserted. -/
def mergeMedia (entries : List (String × MediaMetadata))
    (acc : List (String × MediaMetadata)) : List (String × MediaMetadata) :=
  match entries with
  | [] => acc
  | (h, rm) :: rest =>
    mergeMedia rest
      (match lookupAL acc h with
       | some lm => if ltS lm.last_modified rm.last_modified then insertAL acc h rm else acc
       | none => insertAL acc h rm)

/-- The album half of `merge_from`: only albums not present locally are
inserted. -/
def mergeAlbums (entries : List (String × AlbumMetadata))
    (acc : List (String × AlbumMetadata)) : List (String × AlbumMetadata) :=
  match entries with
  | [] => acc
  | (nm, al) :: rest =>
    mergeAlbums rest (if (lookupAL acc nm).isSome then acc else insertAL acc nm al)

/-- `SyncManifest::merge_from` (LWW merge); `now` models
`current_timestamp()` written into `last_updated`. -/
def mergeFrom (lcl remote : SyncManifest) (now : String) : SyncManifest :=
  { lcl with
    media := mergeMedia remote.media lcl.media
    albums := mergeAlbums remote.albums lcl.albums
    last_updated := now }

end Wanderer

namespace Wanderer

/-! ## Theorems for C1 -/

theorem fromLE32_le32 (n : Nat) (h : n < 2 ^ 32) : fromLE32 (le32 n) = n := by
  simp only [fromLE32, le32, List.getD]
  simp only [List.get?_cons_zero, List.get?_cons_succ, Option.getD_some]
  omega

theorem toyEnc_length (key n a m : List Nat) (hk : 16 ≤ key.length) :
    (toyEnc key n a m).length = m.length + 16 := by
  have htk : (key.take 16).length = 16 := by
    rw [List.length_take]
    omega
  rw [toyEnc, List.length_append, htk]

theorem toyDec_toyEnc (key n a m : List Nat) (hk : 16 ≤ key.length) :
    toyDec key n a (toyEnc key n a m) = some m := by
  unfold toyDec toyEnc
  have htk : (key.take 16).length = 16 := by
    rw [List.length_take]
    omega
  have hlen : (m ++ key.take 16).length = m.length + 16 := by
    rw [List.length_append, htk]
  have h1 : (m ++ key.take 16).length - 16 = m.length := by omega
  rw [if_pos ⟨by omega, by rw [h1]; exact List.drop_left m _⟩, h1, List.take_left]

theorem toyDec_wrong_key (n a m : List Nat) :
    toyDec (1 :: List.replicate 31 0) n a (toyEnc (List.replicate 32 0) n a m) = none := by
  unfold toyDec toyEnc
  rw [if_neg]
  rintro ⟨h1, h2⟩
  have hlen : (m ++ (List.replicate 32 0 : List Nat).take 16).length - 16 = m.length := by
    rw [List.length_append]
    simp
  rw [hlen, List.drop_left] at h2
  exact absurd h2 (by decide)

theorem encryptChunks_nil (enc : List Nat → List Nat → List Nat → List Nat → List Nat)
    (key base : List Nat) (idx : Nat) : encryptChunks enc key base idx [] = [] := by
  rw [encryptChunks]
  rfl

theorem decryptChunks_short (dec : List Nat → List Nat → List Nat → List Nat → Option (List Nat))
    (key base : List Nat) (cs idx : Nat) (acc rest : List Nat) (h : rest.length < 4) :
    decryptChunks dec key base cs idx acc rest = .ok acc := by
  rw [decryptChunks, dif_pos h]

/-- One well-formed chunk at the head of the stream is handled as: decrypt
it and continue (or fail carrying exactly the output so far). -/
theorem decryptChunks_step (dec : List Nat → List Nat → List Nat → List Nat → Option (List Nat))
    (key base : List Nat) (cs idx : Nat) (acc ct rest' : List Nat)
    (h16 : 16 ≤ ct.length) (h32 : ct.length < 2 ^ 32) :
    decryptChunks dec key base cs idx acc (le32 ct.length ++ (ct ++ rest')) =
      match dec key (chunkNonce base idx) (le32 idx) ct with
      | none => .error ("Chunk decryption failed at chunk " ++ toString idx, acc)
      | some pt =>
        if cs < pt.length then .error ("Invalid plaintext chunk length", acc)
        else decryptChunks dec key base cs (idx + 1) (acc ++ pt) rest' := by
  have hlen4 : (le32 ct.length).length = 4 := rfl
  have htake4 : (le32 ct.length ++ (ct ++ rest')).take 4 = le32 ct.length := by
    rw [← hlen4, List.take_left]
  have hdrop4 : (le32 ct.length ++ (ct ++ rest')).drop 4 = ct ++ rest' := by
    rw [← hlen4, List.drop_left]
  have hfrom : fromLE32 (le32 ct.length) = ct.length := fromLE32_le32 _ h32
  rw [decryptChunks]
  rw [dif_neg (by rw [List.length_append, hlen4]; omega)]
  rw [htake4, hdrop4, hfrom]
  rw [if_neg (by omega), if_neg (by rw [List.length_append]; omega),
    List.take_left, List.drop_left]

/-- The chunk loop round-trips: decrypting an encrypted chunk stream under
the same key appends exactly the original plaintext. -/
theorem decryptChunks_encryptChunks
    (enc : List Nat → List Nat → List Nat → List Nat → List Nat)
    (dec : List Nat → List Nat → List Nat → List Nat → Option (List Nat))
    (key base : List Nat)
    (hlen : ∀ n a m, (enc key n a m).length = m.length + 16)
    (hcorr : ∀ n a m, dec key n a (enc key n a m) = some m) :
    ∀ (n : Nat) (pt : List Nat), pt.length ≤ n → ∀ (idx : Nat) (acc : List Nat),
      decryptChunks dec key base defaultChunkSize idx acc (encryptChunks enc key base idx pt) =
        .ok (acc ++ pt) := by
  intro n
  induction n with
  | zero =>
    intro pt hle idx acc
    have hpt : pt = [] := List.length_eq_zero.mp (Nat.le_zero.mp hle)
    subst hpt
    rw [encryptChunks_nil, decryptChunks_short _ _ _ _ _ _ _ (by simp)]
    simp
  | succ n ih =>
    intro pt hle idx acc
    by_cases hpt : pt = []
    · subst hpt
      rw [encryptChunks_nil, decryptChunks_short _ _ _ _ _ _ _ (by simp)]
      simp
    · have hpos : 0 < pt.length := List.length_pos.mpr hpt
      rw [encryptChunks, dif_neg (by simpa [List.isEmpty_iff] using hpt)]
      have hctlen : (enc key (chunkNonce base idx) (le32 idx) (pt.take defaultChunkSize)).length
          = (pt.take defaultChunkSize).length + 16 := hlen _ _ _
      have htklen : (pt.take defaultChunkSize).length ≤ defaultChunkSize := by
        rw [List.length_take]
        omega
      have h32 : (enc key (chunkNonce base idx) (le32 idx) (pt.take defaultChunkSize)).length
          < 2 ^ 32 := by
        rw [hctlen]
        calc (pt.take defaultChunkSize).length + 16 ≤ defaultChunkSize + 16 := by omega
          _ < 2 ^ 32 := by norm_num [defaultChunkSize]
      rw [List.append_assoc]
      rw [decryptChunks_step dec key base defaultChunkSize idx acc _ _ (by omega) h32]
      simp only [hcorr]
      rw [if_neg (by omega)]
      have hdlen : (pt.drop defaultChunkSize).length ≤ n := by
        rw [List.length_drop]
        have : 0 < defaultChunkSize := by norm_num [defaultChunkSize]
        omega
      rw [ih (pt.drop defaultChunkSize) hdlen (idx + 1) _]
      rw [List.append_assoc, List.take_append_drop]

/-- Parsing the header of a well-formed container hands the chunk stream
to the chunk loop with the written chunk size and base nonce. -/
theorem decryptFile_header
    (dec : List Nat → List Nat → List Nat → List Nat → Option (List Nat))
    (key base body : List Nat) (hbase : base.length = 12) :
    decryptFile dec key (fileMagic ++ [1] ++ le32 defaultChunkSize ++ base ++ body) =
      decryptChunks dec key base defaultChunkSize 0 [] body := by
  have hfile : fileMagic ++ [1] ++ le32 defaultChunkSize ++ base ++ body =
      87 :: 66 :: 69 :: 78 :: 67 :: 49 :: 1 :: 0 :: 0 :: 16 :: 0 :: (base ++ body) := by
    simp [fileMagic, le32, defaultChunkSize]
  have hcs : fromLE32 [0, 0, 16, 0] = defaultChunkSize := by
    simp [fromLE32, defaultChunkSize, List.getD]
  unfold decryptFile
  rw [hfile]
  rw [if_neg (by simp)]
  rw [if_neg (by simp [fileMagic])]
  rw [if_neg (by simp)]
  rw [if_neg (by simp)]
  rw [if_neg (by simp)]
  have hdrop7 : List.drop 7 (87 :: 66 :: 69 :: 78 :: 67 :: 49 :: 1 :: 0 :: 0 :: 16 :: 0 ::
      (base ++ body)) = 0 :: 0 :: 16 :: 0 :: (base ++ body) := rfl
  have hdrop11 : List.drop 11 (87 :: 66 :: 69 :: 78 :: 67 :: 49 :: 1 :: 0 :: 0 :: 16 :: 0 ::
      (base ++ body)) = base ++ body := rfl
  rw [hdrop7, hdrop11]
  have htk4 : (0 :: 0 :: 16 :: 0 :: (base ++ body)).take 4 = [0, 0, 16, 0] := rfl
  rw [htk4, hcs]
  rw [if_neg (by simp [defaultChunkSize])]
  rw [if_neg (by simp [hbase])]
  rw [show (base ++ body).take 12 = base by rw [← hbase, List.take_left],
    show (base ++ body).drop 12 = body by rw [← hbase, List.drop_left]]

/-- **C1 (counterexample)**: for the empty plaintext the container has no
chunks, so decryption under a *different* key parses the header, finds no
chunk to authenticate, and succeeds with the empty plaintext instead of
failing with an integrity error. -/
theorem decrypt_empty_wrong_key_no_error :
    decryptFile toyDec (1 :: List.replicate 31 0)
      (encryptFile toyEnc (List.replicate 32 0) (List.replicate 12 0) []) = .ok [] ∧
    (1 :: List.replicate 31 0 : List Nat) ≠ List.replicate 32 0 := by
  constructor
  · unfold encryptFile
    rw [encryptChunks_nil, decryptFile_header _ _ _ _ (by simp)]
    exact decryptChunks_short _ _ _ _ _ _ _ (by simp)
  · decide

/-- **C1 (amended)**: for every key, 12-byte base nonce and plaintext
(empty or of any size, chunk-multiple or not), decrypting the encrypted
container with the same key reproduces the plaintext exactly; and for a
wrong key — one under which the AEAD rejects the chunks — decryption of a
*non-empty* plaintext's container fails at chunk 0 with an integrity
error, having written no plaintext bytes at all.  (The original claim
fails only for the empty plaintext, whose container has no chunk to
authenticate, so wrong-key decryption succeeds with the empty output.) -/
theorem encrypt_file_roundtrip
    (enc : List Nat → List Nat → List Nat → List Nat → List Nat)
    (dec : List Nat → List Nat → List Nat → List Nat → Option (List Nat))
    (key keyW base pt : List Nat) (hbase : base.length = 12)
    (hlen : ∀ n a m, (enc key n a m).length = m.length + 16)
    (hcorr : ∀ n a m, dec key n a (enc key n a m) = some m)
    (hauth : ∀ n a m, dec keyW n a (enc key n a m) = none) :
    decryptFile dec key (encryptFile enc key base pt) = .ok pt ∧
    (pt ≠ [] →
      decryptFile dec keyW (encryptFile enc key base pt) =
        .error ("Chunk decryption failed at chunk 0", [])) := by
  constructor
  · unfold encryptFile
    rw [decryptFile_header _ _ _ _ hbase]
    have h := decryptChunks_encryptChunks enc dec key base hlen hcorr pt.length pt le_rfl 0 []
    rw [h]
    simp
  · intro hne
    unfold encryptFile
    rw [decryptFile_header _ _ _ _ hbase]
    rw [encryptChunks, dif_neg (by simpa [List.isEmpty_iff] using hne)]
    have hctlen : (enc key (chunkNonce base 0) (le32 0) (pt.take defaultChunkSize)).length
        = (pt.take defaultChunkSize).length + 16 := hlen _ _ _
    have htklen : (pt.take defaultChunkSize).length ≤ defaultChunkSize := by
      rw [List.length_take]
      omega
    have h32 : (enc key (chunkNonce base 0) (le32 0) (pt.take defaultChunkSize)).length
        < 2 ^ 32 := by
      rw [hctlen]
      calc (pt.take defaultChunkSize).length + 16 ≤ defaultChunkSize + 16 := by omega
        _ < 2 ^ 32 := by norm_num [defaultChunkSize]
    rw [List.append_assoc]
    rw [decryptChunks_step dec keyW base defaultChunkSize 0 [] _ _ (by omega) h32]
    simp only [hauth]
    have hstr : "Chunk decryption failed at chunk " ++ toString 0 =
        "Chunk decryption failed at chunk 0" := by decide
    rw [hstr]

/-- Witness for C1's amended theorem with the concrete toy AEAD at a
3-byte plaintext and two distinct keys. -/
theorem encrypt_file_roundtrip_witness :
    decryptFile toyDec (List.replicate 32 0)
      (encryptFile toyEnc (List.replicate 32 0) (List.replicate 12 0) [1, 2, 3]) =
      .ok [1, 2, 3] ∧
    decryptFile toyDec (1 :: List.replicate 31 0)
      (encryptFile toyEnc (List.replicate 32 0) (List.replicate 12 0) [1, 2, 3]) =
      .error ("Chunk decryption failed at chunk 0", []) := by
  have h := encrypt_file_roundtrip toyEnc toyDec (List.replicate 32 0)
    (1 :: List.replicate 31 0) (List.replicate 12 0) [1, 2, 3] (by simp)
    (fun n a m => toyEnc_length _ n a m (by simp))
    (fun n a m => toyDec_toyEnc _ n a m (by simp))
    (fun n a m => toyDec_wrong_key n a m)
  exact ⟨h.1, h.2 (by simp)⟩

/-! ## Theorems for C5 -/

/-! ### Roots of the parent graph -/

theorem iterS_add (p : List Nat) (a b x : Nat) :
    iterS p (a + b) x = iterS p b (iterS p a x) := by
  induction a generalizing x with
  | zero => rw [Nat.zero_add]; rfl
  | succ a ih =>
    have h1 : a + 1 + b = (a + b) + 1 := by omega
    rw [h1]
    show iterS p (a + b) (stepP p x) = _
    exact ih (stepP p x)

theorem iterS_succ_last (p : List Nat) (j x : Nat) :
    iterS p (j + 1) x = stepP p (iterS p j x) :=
  iterS_add p j 1 x

theorem iterS_lt (p : List Nat) (hwf : WFP p) (x : Nat) (hx : x < p.length) (j : Nat) :
    iterS p j x < p.length := by
  induction j with
  | zero => exact hx
  | succ j ih =>
    rw [iterS_succ_last]
    exact hwf.1 _ ih

theorem iterS_of_root (p : List Nat) (x : Nat) (h : isRootP p x) (j : Nat) :
    iterS p j x = x := by
  induction j with
  | zero => rfl
  | succ j ih =>
    show iterS p j (stepP p x) = x
    rw [h]
    exact ih

theorem rootF_of_root (f : Nat) (p : List Nat) (x : Nat) (h : isRootP p x) :
    rootF f p x = x := by
  cases f with
  | zero => rfl
  | succ f => rw [rootF, if_pos (show stepP p x = x from h)]

theorem rootF_min (p : List Nat) : ∀ (k : Nat) (x f : Nat),
    (∀ i, i < k → ¬ isRootP p (iterS p i x)) → isRootP p (iterS p k x) → k ≤ f →
    rootF f p x = iterS p k x := by
  intro k
  induction k with
  | zero =>
    intro x f _ hroot _
    exact rootF_of_root f p x hroot
  | succ k ih =>
    intro x f hmin hroot hf
    have h0 : ¬ isRootP p x := hmin 0 (Nat.succ_pos k)
    obtain ⟨f', rfl⟩ : ∃ f', f = f' + 1 := ⟨f - 1, by omega⟩
    rw [rootF, if_neg (show ¬ stepP p x = x from h0)]
    exact ih (stepP p x) f' (fun i hi => hmin (i + 1) (by omega)) hroot (by omega)

theorem exists_min_root (p : List Nat) (x : Nat) (h : ∃ k, isRootP p (iterS p k x)) :
    ∃ k, (∀ i, i < k → ¬ isRootP p (iterS p i x)) ∧ isRootP p (iterS p k x) :=
  ⟨Nat.find h, fun i hi => Nat.find_min h hi, Nat.find_spec h⟩

/-- Pigeonhole: in a well-formed parent array the chain from an in-range
node reaches its root strictly within `p.length` steps. -/
theorem kmin_lt (p : List Nat) (hwf : WFP p) (x : Nat) (hx : x < p.length) (k : Nat)
    (hmin : ∀ i, i < k → ¬ isRootP p (iterS p i x)) (hroot : isRootP p (iterS p k x)) :
    k < p.length := by
  by_contra hk
  have hinj : ∀ i j, i < j → j ≤ k → iterS p i x ≠ iterS p j x := by
    intro i j hij hjk heq
    obtain ⟨t, rfl⟩ : ∃ t, k = j + t := ⟨k - j, by omega⟩
    have h1 : iterS p (j + t) x = iterS p (i + t) x := by
      rw [iterS_add, iterS_add, heq]
    have hlt : i + t < j + t := by omega
    have hnon := hmin (i + t) hlt
    rw [← h1] at hnon
    exact hnon hroot
  have hcard : k + 1 ≤ p.length := by
    have h := Finset.card_le_card_of_injOn (fun j => iterS p j x)
      (fun j _ => Finset.mem_range.mpr (iterS_lt p hwf x hx j))
      (s := Finset.range (k + 1)) (t := Finset.range p.length)
      (fun i hi j hj heq => by
        rcases Nat.lt_trichotomy i j with h | h | h
        · exact absurd heq (hinj i j h (Nat.lt_succ_iff.mp (Finset.mem_range.mp hj)))
        · exact h
        · exact absurd heq.symm (hinj j i h (Nat.lt_succ_iff.mp (Finset.mem_range.mp hi))))
    simpa using h
  omega

/-- The root the fuelled `rootD` computes: the first root on the chain,
reached within `p.length` steps. -/
theorem rootD_char (p : List Nat) (hwf : WFP p) (x : Nat) :
    ∃ k, k ≤ p.length ∧ (∀ i, i < k → ¬ isRootP p (iterS p i x)) ∧
      isRootP p (iterS p k x) ∧ rootD p x = iterS p k x := by
  obtain ⟨k, hmin, hroot⟩ := exists_min_root p x (hwf.2 x)
  have hk : k ≤ p.length := by
    by_cases hx : x < p.length
    · exact le_of_lt (kmin_lt p hwf x hx k hmin hroot)
    · rcases Nat.eq_zero_or_pos k with h0 | h0
      · omega
      · exfalso
        refine hmin 0 h0 ?_
        show isRootP p x
        unfold isRootP stepP
        exact List.getD_eq_default _ _ (le_of_not_lt hx)
  exact ⟨k, hk, hmin, hroot, rootF_min p k x p.length hmin hroot hk⟩

theorem rootD_isRoot (p : List Nat) (hwf : WFP p) (x : Nat) : isRootP p (rootD p x) := by
  obtain ⟨k, _, _, hroot, heq⟩ := rootD_char p hwf x
  rw [heq]
  exact hroot

theorem rootD_lt (p : List Nat) (hwf : WFP p) (x : Nat) (hx : x < p.length) :
    rootD p x < p.length := by
  obtain ⟨k, _, _, _, heq⟩ := rootD_char p hwf x
  rw [heq]
  exact iterS_lt p hwf x hx k

theorem rootD_of_root (p : List Nat) (x : Nat) (h : isRootP p x) : rootD p x = x :=
  rootF_of_root _ p x h

theorem rootD_fuel (p : List Nat) (hwf : WFP p) (x f : Nat) (hf : p.length ≤ f) :
    rootF f p x = rootD p x := by
  obtain ⟨k, hk, hmin, hroot, heq⟩ := rootD_char p hwf x
  rw [heq]
  exact rootF_min p k x f hmin hroot (by omega)

theorem rootD_step (p : List Nat) (hwf : WFP p) (x : Nat) :
    rootD p (stepP p x) = rootD p x := by
  by_cases hr : isRootP p x
  · rw [hr]
  · obtain ⟨k, hk, hmin, hroot, heq⟩ := rootD_char p hwf x
    obtain ⟨k', rfl⟩ : ∃ k', k = k' + 1 := by
      rcases Nat.eq_zero_or_pos k with h0 | h0
      · subst h0
        exact absurd hroot hr
      · exact ⟨k - 1, by omega⟩
    rw [heq]
    show rootD p (stepP p x) = iterS p k' (stepP p x)
    exact rootF_min p k' (stepP p x) p.length
      (fun i hi => hmin (i + 1) (by omega)) hroot (by omega)

theorem rootD_iter (p : List Nat) (hwf : WFP p) (x j : Nat) :
    rootD p (iterS p j x) = rootD p x := by
  induction j generalizing x with
  | zero => rfl
  | succ j ih =>
    show rootD p (iterS p j (stepP p x)) = _
    rw [ih (stepP p x), rootD_step p hwf x]

/-! ### Surgery on one parent pointer -/

theorem stepP_set (p : List Nat) (x r z : Nat) :
    stepP (p.set x r) z = if z = x ∧ x < p.length then r else stepP p z := by
  unfold stepP
  by_cases hz : z = x
  · rw [hz]
    by_cases hx : x < p.length
    · rw [if_pos ⟨rfl, hx⟩, List.getD_eq_getElem?_getD, List.getElem?_set_self',
        List.getElem?_eq_getElem hx]
      rfl
    · rw [if_neg (fun hc => hx hc.2),
        List.getD_eq_default _ _ (by rw [List.length_set]; exact le_of_not_lt hx),
        List.getD_eq_default _ _ (le_of_not_lt hx)]
  · rw [if_neg (fun hc => hz hc.1), List.getD_eq_getElem?_getD,
      List.getElem?_set_ne (fun he => hz he.symm), ← List.getD_eq_getElem?_getD]

theorem stepP_congr_rootF (p q : List Nat) (hs : ∀ z, stepP p z = stepP q z) :
    ∀ f x, rootF f p x = rootF f q x := by
  intro f
  induction f with
  | zero => intro x; rfl
  | succ f ih =>
    intro x
    rw [rootF, rootF, hs x]
    by_cases hx : stepP q x = x
    · rw [if_pos hx, if_pos hx]
    · rw [if_neg hx, if_neg hx]
      exact ih (stepP q x)

theorem stepP_congr_iterS (p q : List Nat) (hs : ∀ z, stepP p z = stepP q z) :
    ∀ j x, iterS p j x = iterS q j x := by
  intro j
  induction j with
  | zero => intro x; rfl
  | succ j ih =>
    intro x
    show iterS p j (stepP p x) = iterS q j (stepP q x)
    rw [hs x]
    exact ih (stepP q x)

theorem wfp_congr (p q : List Nat) (hs : ∀ z, stepP p z = stepP q z)
    (hl : p.length = q.length) (hwf : WFP q) : WFP p := by
  constructor
  · intro z hz
    rw [hs z, hl]
    exact hwf.1 z (hl ▸ hz)
  · intro z
    obtain ⟨k, hk⟩ := hwf.2 z
    exact ⟨k, by unfold isRootP; rw [hs, stepP_congr_iterS p q hs]; exact hk⟩

theorem iterS_set_avoid (p : List Nat) (x r : Nat) : ∀ (j y : Nat),
    (∀ i, i < j → iterS p i y ≠ x) → iterS (p.set x r) j y = iterS p j y := by
  intro j
  induction j with
  | zero => intro y _; rfl
  | succ j ih =>
    intro y h
    have hy : y ≠ x := h 0 (Nat.succ_pos j)
    have hstep : stepP (p.set x r) y = stepP p y := by
      rw [stepP_set, if_neg (fun hc => hy hc.1)]
    show iterS (p.set x r) j (stepP (p.set x r) y) = iterS p j (stepP p y)
    rw [hstep]
    exact ih (stepP p y) (fun i hi => h (i + 1) (by omega))

theorem nonroot_set (p : List Nat) (x r z : Nat) (hz : z ≠ x) (hnr : ¬ isRootP p z) :
    ¬ isRootP (p.set x r) z := by
  unfold isRootP
  rw [stepP_set, if_neg (fun hc => hz hc.1)]
  exact hnr

theorem root_set (p : List Nat) (x r w : Nat) (hw : w ≠ x) (hrw : isRootP p w) :
    isRootP (p.set x r) w := by
  unfold isRootP
  rw [stepP_set, if_neg (fun hc => hw hc.1)]
  exact hrw

/-- Path compression: pointing `x` directly at its root changes no root. -/
theorem set_compress_spec (p : List Nat) (hwf : WFP p) (x : Nat) :
    WFP (p.set x (rootD p x)) ∧ ∀ y, rootD (p.set x (rootD p x)) y = rootD p y := by
  by_cases hx : x < p.length
  · by_cases hrx : isRootP p x
    · have hs : ∀ z, stepP (p.set x (rootD p x)) z = stepP p z := by
        intro z
        rw [stepP_set]
        by_cases hz : z = x ∧ x < p.length
        · rw [if_pos hz, rootD_of_root p x hrx, hz.1, hrx]
        · rw [if_neg hz]
      refine ⟨wfp_congr _ p hs (by rw [List.length_set]) hwf, fun y => ?_⟩
      unfold rootD
      rw [List.length_set]
      exact stepP_congr_rootF _ p hs p.length y
    · -- x is a proper non-root; its new parent is its old root
      set r := rootD p x with hrdef
      have hrroot : isRootP p r := rootD_isRoot p hwf x
      have hrne : r ≠ x := fun hc => hrx (hc ▸ hrroot)
      have hrlt : r < p.length := rootD_lt p hwf x hx
      have hq : ∀ y, rootD (p.set x r) y = rootD p y ∧
          ∃ k, k ≤ p.length ∧ isRootP (p.set x r) (iterS (p.set x r) k y) ∧
            (∀ i, i < k → ¬ isRootP (p.set x r) (iterS (p.set x r) i y)) ∧
            rootD (p.set x r) y = iterS (p.set x r) k y := by
        intro y
        obtain ⟨k, hk, hmin, hroot, heq⟩ := rootD_char p hwf y
        by_cases hon : ∃ j, j ≤ k ∧ iterS p j y = x
        · -- the chain of y passes through x; it is rerouted straight to r
          obtain ⟨jw, hjw, hjx⟩ := hon
          have hex : ∃ j, iterS p j y = x := ⟨jw, hjx⟩
          set j0 := Nat.find hex with hj0def
          have hj0 : iterS p j0 y = x := Nat.find_spec hex
          have hj0min : ∀ i, i < j0 → iterS p i y ≠ x := fun i hi => Nat.find_min hex hi
          have hj0le : j0 ≤ k := le_trans (Nat.find_min' hex hjx) hjw
          have hj0lt : j0 < k := by
            rcases Nat.lt_or_ge j0 k with h | h
            · exact h
            · exfalso
              have : j0 = k := by omega
              rw [this] at hj0
              rw [hj0] at hroot
              exact hrx hroot
          have hiter : iterS (p.set x r) j0 y = x := by
            rw [iterS_set_avoid p x r j0 y hj0min]
            exact hj0
          have hnext : iterS (p.set x r) (j0 + 1) y = r := by
            rw [iterS_succ_last, hiter, stepP_set, if_pos ⟨rfl, hx⟩]
          have hrootq : isRootP (p.set x r) (iterS (p.set x r) (j0 + 1) y) := by
            rw [hnext]
            exact root_set p x r r hrne hrroot
          have hminq : ∀ i, i < j0 + 1 → ¬ isRootP (p.set x r) (iterS (p.set x r) i y) := by
            intro i hi
            rcases Nat.lt_or_ge i j0 with hlt | hge
            · rw [iterS_set_avoid p x r i y (fun l hl => hj0min l (by omega))]
              exact nonroot_set p x r _ (hj0min i hlt) (hmin i (by omega))
            · have : i = j0 := by omega
              rw [this, hiter]
              intro hc
              unfold isRootP at hc
              rw [stepP_set, if_pos ⟨rfl, hx⟩] at hc
              exact hrne hc
          have hfuel : j0 + 1 ≤ p.length := by omega
          have heval : rootD (p.set x r) y = r := by
            have := rootF_min (p.set x r) (j0 + 1) y (p.set x r).length hminq hrootq
              (by rw [List.length_set]; exact hfuel)
            unfold rootD
            rw [this, hnext]
          refine ⟨?_, ⟨j0 + 1, hfuel, hrootq, hminq, by
            rw [heval, hnext]⟩⟩
          rw [heval]
          have h1 : rootD p y = rootD p x := by
            rw [← rootD_iter p hwf y j0, hj0]
          rw [h1]
        · -- the chain of y avoids x entirely
          push_neg at hon
          have havoid : ∀ i, i ≤ k → iterS p i y ≠ x := fun i hi => hon i hi
          have hiter : ∀ j, j ≤ k → iterS (p.set x r) j y = iterS p j y := by
            intro j hj
            exact iterS_set_avoid p x r j y (fun i hi => havoid i (by omega))
          have hrootq : isRootP (p.set x r) (iterS (p.set x r) k y) := by
            rw [hiter k le_rfl]
            exact root_set p x r _ (havoid k le_rfl) hroot
          have hminq : ∀ i, i < k → ¬ isRootP (p.set x r) (iterS (p.set x r) i y) := by
            intro i hi
            rw [hiter i (by omega)]
            exact nonroot_set p x r _ (havoid i (by omega)) (hmin i hi)
          have heval : rootD (p.set x r) y = iterS p k y := by
            have := rootF_min (p.set x r) k y (p.set x r).length hminq hrootq
              (by rw [List.length_set]; exact hk)
            unfold rootD
            rw [this, hiter k le_rfl]
          exact ⟨by rw [heval, heq], ⟨k, hk, hrootq, hminq, by rw [heval, hiter k le_rfl]⟩⟩
      refine ⟨⟨?_, ?_⟩, fun y => (hq y).1⟩
      · intro z hz
        rw [List.length_set] at hz ⊢
        rw [stepP_set]
        by_cases hc : z = x ∧ x < p.length
        · rw [if_pos hc]; exact hrlt
        · rw [if_neg hc]; exact hwf.1 z hz
      · intro z
        obtain ⟨-, k, -, hroot, -, -⟩ := hq z
        exact ⟨k, hroot⟩
  · -- out-of-range set: no entry changes
    have hs : ∀ z, stepP (p.set x (rootD p x)) z = stepP p z := by
      intro z
      rw [stepP_set, if_neg (fun hc => hx hc.2)]
    refine ⟨wfp_congr _ p hs (by rw [List.length_set]) hwf, fun y => ?_⟩
    unfold rootD
    rw [List.length_set]
    exact stepP_congr_rootF _ p hs p.length y

/-- Linking one root under another redirects exactly the classes of the
linked root. -/
theorem set_union_spec (p : List Nat) (hwf : WFP p) (x r : Nat)
    (hx : x < p.length) (hr : r < p.length) (hrx : isRootP p x) (hrr : isRootP p r)
    (hne : x ≠ r) :
    WFP (p.set x r) ∧ ∀ y, rootD (p.set x r) y = if rootD p y = x then r else rootD p y := by
  have hrne : r ≠ x := fun hc => hne hc.symm
  have hq : ∀ y, rootD (p.set x r) y = (if rootD p y = x then r else rootD p y) ∧
      ∃ k, isRootP (p.set x r) (iterS (p.set x r) k y) := by
    intro y
    obtain ⟨k, hk, hmin, hroot, heq⟩ := rootD_char p hwf y
    by_cases hcase : rootD p y = x
    · -- the chain ends at x, which now points at the root r
      have hkx : iterS p k y = x := by rw [← heq]; exact hcase
      have havoid : ∀ i, i < k → iterS p i y ≠ x := by
        intro i hi hc
        exact hmin i hi (hc ▸ hrx)
      have hylt : y < p.length := by
        by_contra hy
        have h0 : isRootP p y := by
          unfold isRootP stepP
          exact List.getD_eq_default _ _ (le_of_not_lt hy)
        have hk0 : k = 0 := by
          rcases Nat.eq_zero_or_pos k with h | h
          · exact h
          · exact absurd h0 (hmin 0 h)
        rw [hk0] at hkx
        have : y = x := hkx
        omega
      have hklt : k < p.length := kmin_lt p hwf y hylt k hmin hroot
      have hiter : iterS (p.set x r) k y = x := by
        rw [iterS_set_avoid p x r k y havoid]
        exact hkx
      have hnext : iterS (p.set x r) (k + 1) y = r := by
        rw [iterS_succ_last, hiter, stepP_set, if_pos ⟨rfl, hx⟩]
      have hrootq : isRootP (p.set x r) (iterS (p.set x r) (k + 1) y) := by
        rw [hnext]
        exact root_set p x r r hrne hrr
      have hminq : ∀ i, i < k + 1 → ¬ isRootP (p.set x r) (iterS (p.set x r) i y) := by
        intro i hi
        rcases Nat.lt_or_ge i k with hlt | hge
        · rw [iterS_set_avoid p x r i y (fun l hl => havoid l (by omega))]
          exact nonroot_set p x r _ (havoid i hlt) (hmin i hlt)
        · have : i = k := by omega
          rw [this, hiter]
          intro hc
          unfold isRootP at hc
          rw [stepP_set, if_pos ⟨rfl, hx⟩] at hc
          exact hne hc.symm
      have heval : rootD (p.set x r) y = r := by
        have := rootF_min (p.set x r) (k + 1) y (p.set x r).length hminq hrootq
          (by rw [List.length_set]; omega)
        unfold rootD
        rw [this, hnext]
      rw [heval, if_pos hcase]
      exact ⟨rfl, ⟨k + 1, hrootq⟩⟩
    · -- the chain of y never meets x
      have havoid : ∀ i, i ≤ k → iterS p i y ≠ x := by
        intro i hi hc
        rcases Nat.lt_or_ge i k with hlt | hge
        · exact hmin i hlt (hc ▸ hrx)
        · have : i = k := by omega
          rw [this] at hc
          exact hcase (by rw [heq, hc])
      have hiter : ∀ j, j ≤ k → iterS (p.set x r) j y = iterS p j y := by
        intro j hj
        exact iterS_set_avoid p x r j y (fun i hi => havoid i (by omega))
      have hrootq : isRootP (p.set x r) (iterS (p.set x r) k y) := by
        rw [hiter k le_rfl]
        exact root_set p x r _ (havoid k le_rfl) hroot
      have hminq : ∀ i, i < k → ¬ isRootP (p.set x r) (iterS (p.set x r) i y) := by
        intro i hi
        rw [hiter i (by omega)]
        exact nonroot_set p x r _ (havoid i (by omega)) (hmin i hi)
      have heval : rootD (p.set x r) y = iterS p k y := by
        have := rootF_min (p.set x r) k y (p.set x r).length hminq hrootq
          (by rw [List.length_set]; exact hk)
        unfold rootD
        rw [this, hiter k le_rfl]
      rw [heval, if_neg hcase, heq]
      exact ⟨rfl, ⟨k, hrootq⟩⟩
  refine ⟨⟨?_, fun z => (hq z).2⟩, fun y => (hq y).1⟩
  intro z hz
  rw [List.length_set] at hz ⊢
  rw [stepP_set]
  by_cases hc : z = x ∧ x < p.length
  · rw [if_pos hc]; exact hr
  · rw [if_neg hc]; exact hwf.1 z hz

/-! ### `find` with path compression -/

theorem findF_spec : ∀ (f : Nat) (p : List Nat), WFP p → ∀ x, isRootP p (rootF f p x) →
    (findF f p x).2 = rootD p x ∧ (findF f p x).1.length = p.length ∧
    WFP (findF f p x).1 ∧ ∀ y, rootD (findF f p x).1 y = rootD p y := by
  intro f
  induction f with
  | zero =>
    intro p hwf x hroot
    exact ⟨(rootD_of_root p x hroot).symm, rfl, hwf, fun y => rfl⟩
  | succ f ih =>
    intro p hwf x hroot
    by_cases hx : stepP p x = x
    · rw [show findF (f + 1) p x = (p, x) from by rw [findF, if_pos hx]]
      exact ⟨(rootD_of_root p x hx).symm, rfl, hwf, fun y => rfl⟩
    · have hunf : findF (f + 1) p x =
          ((findF f p (stepP p x)).1.set x (findF f p (stepP p x)).2,
           (findF f p (stepP p x)).2) := by
        rw [findF, if_neg hx]
      have hroot' : isRootP p (rootF f p (stepP p x)) := by
        rwa [rootF, if_neg hx] at hroot
      obtain ⟨h2, hlen, hwf', hpres⟩ := ih p hwf (stepP p x) hroot'
      have h2x : (findF f p (stepP p x)).2 = rootD p x := by
        rw [h2, rootD_step p hwf x]
      have hrq : (findF f p (stepP p x)).2 = rootD (findF f p (stepP p x)).1 x := by
        rw [h2x]
        exact (hpres x).symm
      obtain ⟨hwfset, hpres2⟩ := set_compress_spec (findF f p (stepP p x)).1 hwf' x
      have hseteq : (findF f p (stepP p x)).1.set x (findF f p (stepP p x)).2 =
          (findF f p (stepP p x)).1.set x (rootD (findF f p (stepP p x)).1 x) := by
        rw [hrq]
      rw [hunf]
      refine ⟨h2x, ?_, ?_, ?_⟩
      · show ((findF f p (stepP p x)).1.set x _).length = p.length
        rw [List.length_set, hlen]
      · show WFP ((findF f p (stepP p x)).1.set x _)
        rw [hseteq]
        exact hwfset
      · intro y
        show rootD ((findF f p (stepP p x)).1.set x _) y = rootD p y
        rw [hseteq, hpres2 y, hpres y]

theorem findF_full (p : List Nat) (hwf : WFP p) (x : Nat) :
    (findF p.length p x).2 = rootD p x ∧ (findF p.length p x).1.length = p.length ∧
    WFP (findF p.length p x).1 ∧ ∀ y, rootD (findF p.length p x).1 y = rootD p y :=
  findF_spec p.length p hwf x (rootD_isRoot p hwf x)

/-! ### `union` and the fold over all close pairs -/

theorem union_join_iff (px py ra rb : Nat) (hab : ra ≠ rb) :
    (((if px = ra then rb else px) = if py = ra then rb else py) ↔
      (px = py ∨ (px = ra ∧ rb = py) ∨ (px = rb ∧ ra = py))) ∧
    (((if px = rb then ra else px) = if py = rb then ra else py) ↔
      (px = py ∨ (px = ra ∧ rb = py) ∨ (px = rb ∧ ra = py))) := by
  constructor
  · by_cases h1 : px = ra <;> by_cases h2 : py = ra <;> simp [h1, h2] <;> omega
  · by_cases h1 : px = rb <;> by_cases h2 : py = rb <;> simp [h1, h2] <;> omega

/-- `unionF` preserves well-formedness and length, and joins exactly the
classes of `a` and `b`. -/
theorem unionF_spec (p rank : List Nat) (hwf : WFP p) (a b : Nat)
    (ha : a < p.length) (hb : b < p.length) :
    WFP (unionF p rank a b).1 ∧ (unionF p rank a b).1.length = p.length ∧
    ∀ x y, rootD (unionF p rank a b).1 x = rootD (unionF p rank a b).1 y ↔
      (rootD p x = rootD p y ∨ (rootD p x = rootD p a ∧ rootD p b = rootD p y) ∨
       (rootD p x = rootD p b ∧ rootD p a = rootD p y)) := by
  obtain ⟨ha2, halen, hawf, hapres⟩ := findF_full p hwf a
  obtain ⟨hb2, hblen, hbwf, hbpres⟩ := findF_full (findF p.length p a).1 hawf b
  have hpres2 : ∀ y,
      rootD (findF (findF p.length p a).1.length (findF p.length p a).1 b).1 y = rootD p y :=
    fun y => by rw [hbpres y, hapres y]
  have hlen2 : (findF (findF p.length p a).1.length (findF p.length p a).1 b).1.length =
      p.length := by rw [hblen, halen]
  have hfb2 : (findF (findF p.length p a).1.length (findF p.length p a).1 b).2 = rootD p b := by
    rw [hb2, hapres b]
  have hra : rootD p a < p.length := rootD_lt p hwf a ha
  have hrb : rootD p b < p.length := rootD_lt p hwf b hb
  have hrootp2 : ∀ z, isRootP p z →
      isRootP (findF (findF p.length p a).1.length (findF p.length p a).1 b).1 z := by
    intro z hz
    have h1 : rootD (findF (findF p.length p a).1.length (findF p.length p a).1 b).1 z = z := by
      rw [hpres2 z, rootD_of_root p z hz]
    have h2 := rootD_isRoot (findF (findF p.length p a).1.length (findF p.length p a).1 b).1
      hbwf z
    rwa [h1] at h2
  have hXroot : isRootP (findF (findF p.length p a).1.length (findF p.length p a).1 b).1
      (findF p.length p a).2 := by
    have h := rootD_isRoot p hwf a
    rw [← ha2] at h
    exact hrootp2 _ h
  have hYroot : isRootP (findF (findF p.length p a).1.length (findF p.length p a).1 b).1
      (findF (findF p.length p a).1.length (findF p.length p a).1 b).2 := by
    have h := rootD_isRoot p hwf b
    rw [← hfb2] at h
    exact hrootp2 _ h
  have hXlt : (findF p.length p a).2 <
      (findF (findF p.length p a).1.length (findF p.length p a).1 b).1.length := by
    rw [hlen2, ha2]
    exact hra
  have hYlt : (findF (findF p.length p a).1.length (findF p.length p a).1 b).2 <
      (findF (findF p.length p a).1.length (findF p.length p a).1 b).1.length := by
    rw [hlen2, hfb2]
    exact hrb
  simp only [unionF]
  split_ifs with h1 h2 h3
  · -- both roots already equal
    refine ⟨hbwf, hlen2, fun x y => ?_⟩
    rw [hpres2 x, hpres2 y]
    have heq : rootD p a = rootD p b := by rw [← ha2, ← hfb2]; exact h1
    constructor
    · intro h
      exact Or.inl h
    · rintro (h | ⟨hxa, hby⟩ | ⟨hxb, hay⟩)
      · exact h
      · rw [hxa, heq, hby]
      · rw [hxb, ← heq, hay]
  · -- rank of a's root smaller: link a's root under b's root
    have hne : (findF p.length p a).2 ≠
        (findF (findF p.length p a).1.length (findF p.length p a).1 b).2 := h1
    obtain ⟨hwfs, hroots⟩ :=
      set_union_spec (findF (findF p.length p a).1.length (findF p.length p a).1 b).1 hbwf
        (findF p.length p a).2
        (findF (findF p.length p a).1.length (findF p.length p a).1 b).2
        hXlt hYlt hXroot hYroot hne
    refine ⟨hwfs, by rw [List.length_set, hlen2], fun x y => ?_⟩
    rw [hroots x, hroots y, hpres2 x, hpres2 y, ha2, hfb2]
    have hne' : rootD p a ≠ rootD p b := by
      rw [← ha2, ← hfb2]
      exact h1
    exact (union_join_iff (rootD p x) (rootD p y) (rootD p a) (rootD p b) hne').1
  · -- rank of b's root smaller: link b's root under a's root
    have hne : (findF (findF p.length p a).1.length (findF p.length p a).1 b).2 ≠
        (findF p.length p a).2 := fun hc => h1 hc.symm
    obtain ⟨hwfs, hroots⟩ :=
      set_union_spec (findF (findF p.length p a).1.length (findF p.length p a).1 b).1 hbwf
        (findF (findF p.length p a).1.length (findF p.length p a).1 b).2
        (findF p.length p a).2
        hYlt hXlt hYroot hXroot hne
    refine ⟨hwfs, by rw [List.length_set, hlen2], fun x y => ?_⟩
    rw [hroots x, hroots y, hpres2 x, hpres2 y, ha2, hfb2]
    have hne' : rootD p a ≠ rootD p b := by
      rw [← ha2, ← hfb2]
      exact h1
    exact (union_join_iff (rootD p x) (rootD p y) (rootD p a) (rootD p b) hne').2
  · -- equal ranks: link b's root under a's root and bump the rank
    have hne : (findF (findF p.length p a).1.length (findF p.length p a).1 b).2 ≠
        (findF p.length p a).2 := fun hc => h1 hc.symm
    obtain ⟨hwfs, hroots⟩ :=
      set_union_spec (findF (findF p.length p a).1.length (findF p.length p a).1 b).1 hbwf
        (findF (findF p.length p a).1.length (findF p.length p a).1 b).2
        (findF p.length p a).2
        hYlt hXlt hYroot hXroot hne
    refine ⟨hwfs, by rw [List.length_set, hlen2], fun x y => ?_⟩
    rw [hroots x, hroots y, hpres2 x, hpres2 y, ha2, hfb2]
    have hne' : rootD p a ≠ rootD p b := by
      rw [← ha2, ← hfb2]
      exact h1
    exact (union_join_iff (rootD p x) (rootD p y) (rootD p a) (rootD p b) hne').2

/-! ### The equivalence closure of the hop relation -/

theorem linked_bind {E F : Nat → Nat → Prop} (h : ∀ x y, E x y → Linked F x y) :
    ∀ x y, Linked E x y → Linked F x y := by
  intro x y hl
  induction hl with
  | base he => exact h _ _ he
  | refl z => exact Linked.refl z
  | symm _ ih => exact Linked.symm ih
  | trans _ _ ih1 ih2 => exact Linked.trans ih1 ih2

theorem linked_collapse {E R : Nat → Nat → Prop}
    (hrefl : ∀ x, R x x) (hsymm : ∀ x y, R x y → R y x)
    (htrans : ∀ x y z, R x y → R y z → R x z) (hbase : ∀ x y, E x y → R x y) :
    ∀ x y, Linked E x y → R x y := by
  intro x y hl
  induction hl with
  | base he => exact hbase _ _ he
  | refl z => exact hrefl z
  | symm _ ih => exact hsymm _ _ ih
  | trans _ _ ih1 ih2 => exact htrans _ _ _ ih1 ih2

/-- Folding `union` over a pair list merges exactly the equivalence
closure of the passing pairs on top of the incoming partition. -/
theorem processPairs_spec (distB : Nat → Nat → Bool) :
    ∀ (L : List (Nat × Nat)) (p rank : List Nat), WFP p →
      (∀ ij ∈ L, ij.1 < p.length ∧ ij.2 < p.length) →
      WFP (processPairs distB L (p, rank)).1 ∧
      (processPairs distB L (p, rank)).1.length = p.length ∧
      ∀ x y, rootD (processPairs distB L (p, rank)).1 x =
          rootD (processPairs distB L (p, rank)).1 y ↔
        Linked (fun u v => rootD p u = rootD p v ∨ ((u, v) ∈ L ∧ distB u v = true)) x y := by
  intro L
  induction L with
  | nil =>
    intro p rank hwf _
    refine ⟨hwf, rfl, fun x y => ?_⟩
    constructor
    · intro h
      exact Linked.base (Or.inl h)
    · refine linked_collapse (R := fun u v => rootD p u = rootD p v) (fun z => rfl)
        (fun u v h => h.symm) (fun u v w h1 h2 => h1.trans h2) ?_ x y
      rintro u v (h | ⟨hm, -⟩)
      · exact h
      · exact absurd hm (List.not_mem_nil _)
  | cons ij rest ih =>
    intro p rank hwf hin
    obtain ⟨i, j⟩ := ij
    by_cases hd : distB i j = true
    · have hij := hin (i, j) (List.mem_cons_self _ _)
      obtain ⟨hwf', hlen', hiff'⟩ := unionF_spec p rank hwf i j hij.1 hij.2
      have hunf : processPairs distB ((i, j) :: rest) (p, rank) =
          processPairs distB rest (unionF p rank i j) := by
        show processPairs distB rest
          (if distB i j = true then unionF p rank i j else (p, rank)) = _
        rw [if_pos hd]
      obtain ⟨hwfF, hlenF, hiffF⟩ := ih (unionF p rank i j).1 (unionF p rank i j).2 hwf'
        (fun kl hkl => by
          rw [hlen']
          exact hin kl (List.mem_cons_of_mem _ hkl))
      refine ⟨?_, ?_, ?_⟩
      · rw [hunf]
        exact hwfF
      · rw [hunf]
        exact hlenF.trans hlen'
      · intro x y
        rw [hunf]
        have hgoal1 : rootD (processPairs distB rest (unionF p rank i j)).1 x =
            rootD (processPairs distB rest (unionF p rank i j)).1 y ↔
            Linked (fun u v => rootD (unionF p rank i j).1 u = rootD (unionF p rank i j).1 v ∨
              ((u, v) ∈ rest ∧ distB u v = true)) x y := hiffF x y
        rw [hgoal1]
        constructor
        · refine linked_bind ?_ x y
          rintro u v (hR | ⟨hm, hduv⟩)
          · rw [hiff' u v] at hR
            rcases hR with h | ⟨hl, hr⟩ | ⟨hl, hr⟩
            · exact Linked.base (Or.inl h)
            · exact Linked.trans (Linked.base (Or.inl hl))
                (Linked.trans (Linked.base (Or.inr ⟨List.mem_cons_self _ _, hd⟩))
                  (Linked.base (Or.inl hr)))
            · exact Linked.trans (Linked.base (Or.inl hl))
                (Linked.trans (Linked.symm (Linked.base (Or.inr ⟨List.mem_cons_self _ _, hd⟩)))
                  (Linked.base (Or.inl hr)))
          · exact Linked.base (Or.inr ⟨List.mem_cons_of_mem _ hm, hduv⟩)
        · refine linked_bind ?_ x y
          rintro u v (hR | ⟨hm, hduv⟩)
          · exact Linked.base (Or.inl ((hiff' u v).mpr (Or.inl hR)))
          · rcases List.mem_cons.mp hm with heq | hm'
            · injection heq with hu hv
              subst hu
              subst hv
              exact Linked.base (Or.inl ((hiff' u v).mpr (Or.inr (Or.inl ⟨rfl, rfl⟩))))
            · exact Linked.base (Or.inr ⟨hm', hduv⟩)
    · have hunf : processPairs distB ((i, j) :: rest) (p, rank) =
          processPairs distB rest (p, rank) := by
        show processPairs distB rest
          (if distB i j = true then unionF p rank i j else (p, rank)) = _
        rw [if_neg hd]
      obtain ⟨hwfF, hlenF, hiffF⟩ := ih p rank hwf
        (fun kl hkl => hin kl (List.mem_cons_of_mem _ hkl))
      refine ⟨by rw [hunf]; exact hwfF, by rw [hunf]; exact hlenF, fun x y => ?_⟩
      rw [hunf, hiffF x y]
      constructor
      · refine linked_bind ?_ x y
        rintro u v (hR | ⟨hm, hduv⟩)
        · exact Linked.base (Or.inl hR)
        · exact Linked.base (Or.inr ⟨List.mem_cons_of_mem _ hm, hduv⟩)
      · refine linked_bind ?_ x y
        rintro u v (hR | ⟨hm, hduv⟩)
        · exact Linked.base (Or.inl hR)
        · rcases List.mem_cons.mp hm with heq | hm'
          · exfalso
            injection heq with hu hv
            rw [hu, hv] at hduv
            exact hd hduv
          · exact Linked.base (Or.inr ⟨hm', hduv⟩)

/-! ### The complete pair list and the initial partition -/

theorem range_isRoot (n x : Nat) : isRootP (List.range n) x := by
  unfold isRootP stepP
  by_cases hx : x < n
  · rw [List.getD_eq_getElem?_getD, List.getElem?_range hx]
    rfl
  · exact List.getD_eq_default _ _ (by rw [List.length_range]; omega)

theorem wfp_range (n : Nat) : WFP (List.range n) := by
  refine ⟨fun x hx => ?_, fun x => ⟨0, range_isRoot n x⟩⟩
  rw [show stepP (List.range n) x = x from range_isRoot n x]
  exact hx

theorem rootD_range (n x : Nat) : rootD (List.range n) x = x :=
  rootD_of_root _ _ (range_isRoot n x)

theorem mem_allPairs (n i j : Nat) : (i, j) ∈ allPairs n ↔ i < j ∧ j < n := by
  unfold allPairs
  rw [List.mem_bind]
  constructor
  · rintro ⟨a, ha, hmem⟩
    rw [List.mem_map] at hmem
    obtain ⟨b, hb, heq⟩ := hmem
    injection heq with h1 h2
    subst h1
    subst h2
    rw [List.mem_range] at ha
    rw [List.mem_range'_1] at hb
    omega
  · rintro ⟨hij, hjn⟩
    refine ⟨i, ?_, ?_⟩
    · rw [List.mem_range]
      omega
    · rw [List.mem_map]
      refine ⟨j, ?_, rfl⟩
      rw [List.mem_range'_1]
      omega

theorem hammingDist_comm (a b : Nat) : hammingDist a b = hammingDist b a := by
  unfold hammingDist
  show popcount64 (a ^^^ b) = popcount64 (b ^^^ a)
  rw [Nat.xor_comm]

/-- The parent array built by `find_duplicates` realizes exactly the
equivalence closure of the ≤10-bit hop relation on candidate indices. -/
theorem dupUF_spec (cs : List MediaRow) :
    WFP (dupUF cs) ∧ (dupUF cs).length = cs.length ∧
    ∀ x y, rootD (dupUF cs) x = rootD (dupUF cs) y ↔ Linked (closeIdx cs) x y := by
  have hwfr := wfp_range cs.length
  have hin : ∀ ij ∈ allPairs cs.length,
      ij.1 < (List.range cs.length).length ∧ ij.2 < (List.range cs.length).length := by
    intro ij hij
    obtain ⟨i, j⟩ := ij
    rw [mem_allPairs] at hij
    rw [List.length_range]
    exact ⟨by omega, hij.2⟩
  obtain ⟨hwfF, hlenF, hiffF⟩ := processPairs_spec (distLE10 cs) (allPairs cs.length)
    (List.range cs.length) (List.replicate cs.length 0) hwfr hin
  have hdup : dupUF cs = (processPairs (distLE10 cs) (allPairs cs.length)
      (List.range cs.length, List.replicate cs.length 0)).1 := rfl
  refine ⟨by rw [hdup]; exact hwfF, by rw [hdup, hlenF, List.length_range], fun x y => ?_⟩
  rw [hdup, hiffF x y]
  constructor
  · refine linked_bind ?_ x y
    rintro u v (hR | ⟨hm, hduv⟩)
    · rw [rootD_range cs.length u, rootD_range cs.length v] at hR
      rw [hR]
      exact Linked.refl v
    · rw [mem_allPairs] at hm
      unfold distLE10 at hduv
      exact Linked.base ⟨by omega, hm.2, of_decide_eq_true hduv⟩
  · refine linked_bind ?_ x y
    intro u v hc
    obtain ⟨hu, hv, hdist⟩ := hc
    rcases Nat.lt_trichotomy u v with hlt | heq | hgt
    · refine Linked.base (Or.inr ⟨(mem_allPairs _ _ _).mpr ⟨hlt, hv⟩, ?_⟩)
      unfold distLE10
      exact decide_eq_true hdist
    · rw [heq]
      exact Linked.refl v
    · refine Linked.symm (Linked.base (Or.inr ⟨(mem_allPairs _ _ _).mpr ⟨hgt, hu⟩, ?_⟩))
      unfold distLE10
      exact decide_eq_true (by rw [hammingDist_comm]; exact hdist)

/-! ### Grouping by root -/

theorem lookupAL_pushAL (m : List (Nat × List Nat)) (r i k : Nat) :
    lookupAL (pushAL m r i) k =
      if r = k then some ((lookupAL m k).getD [] ++ [i]) else lookupAL m k := by
  induction m with
  | nil =>
    by_cases h : r = k
    · subst h
      simp [pushAL, lookupAL]
    · simp [pushAL, lookupAL, h]
  | cons e rest ih =>
    obtain ⟨k', l⟩ := e
    by_cases h1 : k' = r
    · subst h1
      by_cases h2 : k' = k
      · subst h2
        simp [pushAL, lookupAL]
      · simp [pushAL, lookupAL, h2]
    · by_cases h2 : k' = k
      · subst h2
        have hrk : ¬ r = k' := fun hc => h1 hc.symm
        simp [pushAL, lookupAL, h1, hrk]
      · simp [pushAL, lookupAL, h1, h2, ih]

theorem pushAL_keys_mem (m : List (Nat × List Nat)) (r i : Nat)
    (h : r ∈ m.map Prod.fst) : (pushAL m r i).map Prod.fst = m.map Prod.fst := by
  induction m with
  | nil => exact absurd h (List.not_mem_nil r)
  | cons e rest ih =>
    obtain ⟨k, l⟩ := e
    by_cases h1 : k = r
    · subst h1
      simp [pushAL]
    · have h2 : r ∈ rest.map Prod.fst := by
        rcases List.mem_cons.mp h with hc | hc
        · exact absurd hc.symm h1
        · exact hc
      simp [pushAL, h1, ih h2]

theorem pushAL_keys_new (m : List (Nat × List Nat)) (r i : Nat)
    (h : r ∉ m.map Prod.fst) : (pushAL m r i).map Prod.fst = m.map Prod.fst ++ [r] := by
  induction m with
  | nil => simp [pushAL]
  | cons e rest ih =>
    obtain ⟨k, l⟩ := e
    have h1 : k ≠ r := by
      intro hc
      exact h (by rw [hc]; exact List.mem_cons_self _ _)
    have h2 : r ∉ rest.map Prod.fst := fun hc => h (List.mem_cons_of_mem _ hc)
    simp [pushAL, h1, ih h2]

theorem pushAL_keys_nodup (m : List (Nat × List Nat)) (r i : Nat)
    (h : (m.map Prod.fst).Nodup) : ((pushAL m r i).map Prod.fst).Nodup := by
  by_cases hr : r ∈ m.map Prod.fst
  · rw [pushAL_keys_mem m r i hr]
    exact h
  · rw [pushAL_keys_new m r i hr, List.nodup_append]
    refine ⟨h, List.nodup_singleton r, ?_⟩
    intro a ha hb
    rw [List.mem_singleton] at hb
    subst hb
    exact hr ha

theorem lookupAL_pushSeq (R : Nat → Nat) :
    ∀ (idxs : List Nat) (m : List (Nat × List Nat)) (k : Nat),
      (lookupAL (pushSeq R idxs m) k).getD [] =
        (lookupAL m k).getD [] ++ idxs.filter (fun i => decide (R i = k)) := by
  intro idxs
  induction idxs with
  | nil =>
    intro m k
    simp [pushSeq]
  | cons i rest ih =>
    intro m k
    show (lookupAL (pushSeq R rest (pushAL m (R i) i)) k).getD [] = _
    rw [ih (pushAL m (R i) i) k, lookupAL_pushAL, List.filter_cons]
    by_cases h : R i = k
    · rw [if_pos h, if_pos (decide_eq_true h), Option.getD_some, List.append_assoc]
      rfl
    · rw [if_neg h, if_neg (fun hc => h (of_decide_eq_true hc))]

theorem nodup_keys_pushSeq (R : Nat → Nat) :
    ∀ (idxs : List Nat) (m : List (Nat × List Nat)),
      (m.map Prod.fst).Nodup → ((pushSeq R idxs m).map Prod.fst).Nodup := by
  intro idxs
  induction idxs with
  | nil => intro m h; exact h
  | cons i rest ih => intro m h; exact ih _ (pushAL_keys_nodup m (R i) i h)

theorem lookupAL_of_mem {κ α : Type} [DecidableEq κ] :
    ∀ (m : List (κ × α)) (k : κ) (v : α), (m.map Prod.fst).Nodup → (k, v) ∈ m →
      lookupAL m k = some v := by
  intro m
  induction m with
  | nil => intro k v _ hm; exact absurd hm (List.not_mem_nil _)
  | cons e rest ih =>
    intro k v hnd hm
    obtain ⟨k', v'⟩ := e
    rw [List.map_cons, List.nodup_cons] at hnd
    rcases List.mem_cons.mp hm with heq | hm'
    · injection heq with h1 h2
      show (if k' = k then some v' else lookupAL rest k) = some v
      rw [if_pos h1.symm, h2]
    · show (if k' = k then some v' else lookupAL rest k) = some v
      have hk : k' ≠ k := by
        intro hc
        subst hc
        exact hnd.1 (List.mem_map.mpr ⟨(k', v), hm', rfl⟩)
      rw [if_neg hk]
      exact ih k v hnd.2 hm'

theorem mem_of_lookupAL {κ α : Type} [DecidableEq κ] :
    ∀ (m : List (κ × α)) (k : κ) (v : α), lookupAL m k = some v → (k, v) ∈ m := by
  intro m
  induction m with
  | nil => intro k v h; exact absurd h (by simp [lookupAL])
  | cons e rest ih =>
    intro k v h
    obtain ⟨k', v'⟩ := e
    rw [show lookupAL ((k', v') :: rest) k = if k' = k then some v' else lookupAL rest k
      from rfl] at h
    by_cases hk : k' = k
    · rw [if_pos hk] at h
      injection h with h2
      rw [List.mem_cons]
      left
      rw [← hk, ← h2]
    · rw [if_neg hk] at h
      exact List.mem_cons_of_mem _ (ih k v h)

theorem pushSeq_congr (R1 R2 : Nat → Nat) (h : ∀ i, R1 i = R2 i) :
    ∀ (idxs : List Nat) (m : List (Nat × List Nat)), pushSeq R1 idxs m = pushSeq R2 idxs m := by
  intro idxs
  induction idxs with
  | nil => intro m; rfl
  | cons i rest ih =>
    intro m
    show pushSeq R1 rest (pushAL m (R1 i) i) = pushSeq R2 rest (pushAL m (R2 i) i)
    rw [h i]
    exact ih _

/-- The grouping loop computes the same map as a pure fold with the
(stable) root function of the incoming parent array. -/
theorem groupFold_eq : ∀ (idxs : List Nat) (p : List Nat) (m : List (Nat × List Nat)), WFP p →
    (groupFold idxs p m).2 = pushSeq (rootD p) idxs m := by
  intro idxs
  induction idxs with
  | nil => intro p m _; rfl
  | cons i rest ih =>
    intro p m hwf
    obtain ⟨h2, hlen, hwf', hpres⟩ := findF_full p hwf i
    show (groupFold rest (findF p.length p i).1 (pushAL m (findF p.length p i).2 i)).2 = _
    rw [h2, ih (findF p.length p i).1 (pushAL m (rootD p i) i) hwf',
      pushSeq_congr (rootD (findF p.length p i).1) (rootD p) hpres rest _]
    rfl

theorem one_lt_length_of_two_mem {l : List Nat} (hnd : l.Nodup) {i j : Nat}
    (hi : i ∈ l) (hj : j ∈ l) (hne : i ≠ j) : 1 < l.length := by
  rcases l with _ | ⟨a, _ | ⟨b, t⟩⟩
  · exact absurd hi (List.not_mem_nil _)
  · rw [List.mem_singleton] at hi hj
    exact absurd (hi.trans hj.symm) hne
  · show 1 < t.length + 1 + 1
    omega

/-- The index-level groups: exactly the classes of size ≥ 2 of the
union-find closure, with all members in range. -/
theorem dupGroups_spec (cs : List MediaRow) :
    (∀ g ∈ dupGroupsIdx cs, 1 < g.length ∧ (∀ i ∈ g, i < cs.length) ∧
       ∀ i ∈ g, ∀ j ∈ g, Linked (closeIdx cs) i j) ∧
    (∀ g1 ∈ dupGroupsIdx cs, ∀ g2 ∈ dupGroupsIdx cs, g1 ≠ g2 →
       ∀ i ∈ g1, ∀ j ∈ g2, ¬ Linked (closeIdx cs) i j) ∧
    (∀ i j, i < cs.length → j < cs.length → Linked (closeIdx cs) i j → i ≠ j →
       ∃ g ∈ dupGroupsIdx cs, i ∈ g ∧ j ∈ g) := by
  obtain ⟨hwf, hlen, hiff⟩ := dupUF_spec cs
  by_cases hn : cs.length < 2
  · have hG : dupGroupsIdx cs = [] := by
      unfold dupGroupsIdx
      rw [if_pos hn]
    rw [hG]
    refine ⟨fun g hg => absurd hg (List.not_mem_nil g),
      fun g1 hg1 => absurd hg1 (List.not_mem_nil g1), ?_⟩
    intro i j hi hj _ hne
    omega
  · have hG : dupGroupsIdx cs =
        (((pushSeq (rootD (dupUF cs)) (List.range cs.length) []).map Prod.snd).filter
          (fun g => 1 < g.length)) := by
      unfold dupGroupsIdx
      rw [if_neg hn, groupFold_eq (List.range cs.length) (dupUF cs) [] hwf]
    have hnodup : ((pushSeq (rootD (dupUF cs)) (List.range cs.length) []).map Prod.fst).Nodup :=
      nodup_keys_pushSeq _ _ [] List.nodup_nil
    have hent : ∀ k l, (k, l) ∈ pushSeq (rootD (dupUF cs)) (List.range cs.length) [] →
        l = (List.range cs.length).filter (fun i => decide (rootD (dupUF cs) i = k)) := by
      intro k l hm
      have h1 := lookupAL_of_mem _ k l hnodup hm
      have h2 := lookupAL_pushSeq (rootD (dupUF cs)) (List.range cs.length) [] k
      rw [h1, Option.getD_some] at h2
      rw [h2]
      rfl
    have hmemgrp : ∀ g, g ∈ dupGroupsIdx cs ↔ 1 < g.length ∧
        ∃ k, (k, g) ∈ pushSeq (rootD (dupUF cs)) (List.range cs.length) [] := by
      intro g
      rw [hG, List.mem_filter, List.mem_map]
      constructor
      · rintro ⟨⟨e, he, heq⟩, hlen1⟩
        refine ⟨of_decide_eq_true hlen1, e.1, ?_⟩
        rw [show (e.1, g) = e from by rw [← heq]]
        exact he
      · rintro ⟨hlen1, k, hk⟩
        exact ⟨⟨(k, g), hk, rfl⟩, decide_eq_true hlen1⟩
    have hmemfilter : ∀ (k i : Nat),
        i ∈ (List.range cs.length).filter (fun i => decide (rootD (dupUF cs) i = k)) ↔
          i < cs.length ∧ rootD (dupUF cs) i = k := by
      intro k i
      rw [List.mem_filter, List.mem_range]
      constructor
      · rintro ⟨h1, h2⟩
        exact ⟨h1, of_decide_eq_true h2⟩
      · rintro ⟨h1, h2⟩
        exact ⟨h1, decide_eq_true h2⟩
    refine ⟨?_, ?_, ?_⟩
    · intro g hg
      obtain ⟨hlen1, k, hk⟩ := (hmemgrp g).mp hg
      have hfe := hent k g hk
      refine ⟨hlen1, ?_, ?_⟩
      · intro i hi
        rw [hfe] at hi
        exact ((hmemfilter k i).mp hi).1
      · intro i hi j hj
        rw [hfe] at hi hj
        obtain ⟨-, hri⟩ := (hmemfilter k i).mp hi
        obtain ⟨-, hrj⟩ := (hmemfilter k j).mp hj
        exact (hiff i j).mp (by rw [hri, hrj])
    · intro g1 hg1 g2 hg2 hne i hi j hj hL
      obtain ⟨-, k1, hk1⟩ := (hmemgrp g1).mp hg1
      obtain ⟨-, k2, hk2⟩ := (hmemgrp g2).mp hg2
      have hf1 := hent k1 g1 hk1
      have hf2 := hent k2 g2 hk2
      have hkne : k1 ≠ k2 := by
        intro hc
        apply hne
        rw [hf1, hf2, hc]
      rw [hf1] at hi
      rw [hf2] at hj
      obtain ⟨-, hri⟩ := (hmemfilter k1 i).mp hi
      obtain ⟨-, hrj⟩ := (hmemfilter k2 j).mp hj
      have := (hiff i j).mpr hL
      rw [hri, hrj] at this
      exact hkne this
    · intro i j hi hj hL hne
      have hrj : rootD (dupUF cs) j = rootD (dupUF cs) i := ((hiff i j).mpr hL).symm
      have hlook := lookupAL_pushSeq (rootD (dupUF cs)) (List.range cs.length) []
        (rootD (dupUF cs) i)
      have hiF : i ∈ (List.range cs.length).filter
          (fun x => decide (rootD (dupUF cs) x = rootD (dupUF cs) i)) :=
        (hmemfilter _ i).mpr ⟨hi, rfl⟩
      have hjF : j ∈ (List.range cs.length).filter
          (fun x => decide (rootD (dupUF cs) x = rootD (dupUF cs) i)) :=
        (hmemfilter _ j).mpr ⟨hj, hrj⟩
      have hne2 : lookupAL (pushSeq (rootD (dupUF cs)) (List.range cs.length) [])
          (rootD (dupUF cs) i) ≠ none := by
        intro hc
        rw [hc] at hlook
        have : i ∈ ([] : List Nat) := by
          show i ∈ (none : Option (List Nat)).getD []
          rw [hlook]
          show i ∈ (lookupAL ([] : List (Nat × List Nat)) (rootD (dupUF cs) i)).getD [] ++ _
          exact List.mem_append_right _ hiF
        exact absurd this (List.not_mem_nil i)
      obtain ⟨l, hl⟩ := Option.ne_none_iff_exists'.mp hne2
      have hmem := mem_of_lookupAL _ _ _ hl
      have hfl := hent _ l hmem
      have hiL : i ∈ l := by
        rw [hfl]
        exact hiF
      have hjL : j ∈ l := by
        rw [hfl]
        exact hjF
      have hlnd : l.Nodup := by
        rw [hfl]
        exact List.Nodup.filter _ (List.nodup_range cs.length)
      refine ⟨l, (hmemgrp l).mpr ⟨one_lt_length_of_two_mem hlnd hiL hjL hne, _, hmem⟩,
        hiL, hjL⟩

/-! ### Insertion sort -/

theorem insertSorted_perm {α : Type} (le : α → α → Bool) (a : α) :
    ∀ l : List α, (insertSorted le a l).Perm (a :: l) := by
  intro l
  induction l with
  | nil => exact List.Perm.refl [a]
  | cons b t ih =>
    show (if le b a = true then b :: insertSorted le a t else a :: b :: t).Perm (a :: b :: t)
    by_cases h : le b a = true
    · rw [if_pos h]
      exact (List.Perm.cons b ih).trans (List.Perm.swap a b t)
    · rw [if_neg h]

theorem isortBy_perm {α : Type} (le : α → α → Bool) :
    ∀ l : List α, (isortBy le l).Perm l := by
  intro l
  induction l with
  | nil => exact List.Perm.refl []
  | cons a t ih =>
    show (insertSorted le a (isortBy le t)).Perm (a :: t)
    exact (insertSorted_perm le a (isortBy le t)).trans (List.Perm.cons a ih)

theorem insertSorted_sorted {α : Type} (le : α → α → Bool)
    (htot : ∀ a b, le a b = true ∨ le b a = true)
    (htrans : ∀ a b c, le a b = true → le b c = true → le a c = true) (a : α) :
    ∀ l, List.Pairwise (fun x y => le x y = true) l →
      List.Pairwise (fun x y => le x y = true) (insertSorted le a l) := by
  intro l
  induction l with
  | nil =>
    intro _
    exact List.Pairwise.cons (fun b hb => absurd hb (List.not_mem_nil b)) List.Pairwise.nil
  | cons b t ih =>
    intro hp
    rw [List.pairwise_cons] at hp
    obtain ⟨hb, ht⟩ := hp
    show List.Pairwise _ (if le b a = true then b :: insertSorted le a t else a :: b :: t)
    by_cases h : le b a = true
    · rw [if_pos h, List.pairwise_cons]
      refine ⟨?_, ih ht⟩
      intro x hx
      have hx' : x = a ∨ x ∈ t := by
        have hm := (insertSorted_perm le a t).mem_iff.mp hx
        rwa [List.mem_cons] at hm
      rcases hx' with rfl | hx'
      · exact h
      · exact hb x hx'
    · rw [if_neg h, List.pairwise_cons]
      have hab : le a b = true := by
        rcases htot a b with h1 | h1
        · exact h1
        · exact absurd h1 h
      refine ⟨?_, List.Pairwise.cons hb ht⟩
      intro x hx
      rw [List.mem_cons] at hx
      rcases hx with rfl | hx
      · exact hab
      · exact htrans a b x hab (hb x hx)

theorem isortBy_sorted {α : Type} (le : α → α → Bool)
    (htot : ∀ a b, le a b = true ∨ le b a = true)
    (htrans : ∀ a b c, le a b = true → le b c = true → le a c = true) :
    ∀ l, List.Pairwise (fun x y => le x y = true) (isortBy le l) := by
  intro l
  induction l with
  | nil => exact List.Pairwise.nil
  | cons a t ih =>
    show List.Pairwise _ (insertSorted le a (isortBy le t))
    exact insertSorted_sorted le htot htrans a (isortBy le t) ih

/-- C5: `find_duplicates`, over the non-deleted candidates with a
non-null perceptual hash, returns exactly the union-find closure of pairs
at Hamming distance ≤ 10 bits: the returned row groups are (up to the two
sorts) the index-level classes; only groups of size ≥ 2 are kept; any two
members of one group are connected by a chain of ≤10-bit hops; no two
members of different groups are; any two distinct connected candidates
land in a common group; each returned group is sorted by `created_at`
ascending and the groups are sorted by size descending. -/
theorem find_duplicates_spec (rows : List MediaRow) :
    ((findDuplicates rows).Perm ((dupGroupsIdx (dupCandidates rows)).map (fun g =>
        isortBy (fun r s => decide (r.created_at ≤ s.created_at))
          (g.map (fun i => (dupCandidates rows).getD i default)))) ∧
     List.Pairwise (fun g h => h.length ≤ g.length) (findDuplicates rows) ∧
     (∀ g ∈ findDuplicates rows,
        List.Pairwise (fun r s => r.created_at ≤ s.created_at) g) ∧
     (∀ g ∈ findDuplicates rows, 1 < g.length) ∧
     (∀ g ∈ findDuplicates rows, ∃ gi ∈ dupGroupsIdx (dupCandidates rows),
        g.Perm (gi.map (fun i => (dupCandidates rows).getD i default)))) ∧
    (∀ g ∈ dupGroupsIdx (dupCandidates rows), 1 < g.length ∧
       (∀ i ∈ g, i < (dupCandidates rows).length) ∧
       ∀ i ∈ g, ∀ j ∈ g, Linked (closeIdx (dupCandidates rows)) i j) ∧
    (∀ g1 ∈ dupGroupsIdx (dupCandidates rows), ∀ g2 ∈ dupGroupsIdx (dupCandidates rows),
       g1 ≠ g2 → ∀ i ∈ g1, ∀ j ∈ g2, ¬ Linked (closeIdx (dupCandidates rows)) i j) ∧
    (∀ i j, i < (dupCandidates rows).length → j < (dupCandidates rows).length →
       Linked (closeIdx (dupCandidates rows)) i j → i ≠ j →
       ∃ g ∈ dupGroupsIdx (dupCandidates rows), i ∈ g ∧ j ∈ g) := by
  obtain ⟨hA, hB, hC⟩ := dupGroups_spec (dupCandidates rows)
  have hFD : findDuplicates rows = isortBy (fun g h => decide (h.length ≤ g.length))
      ((dupGroupsIdx (dupCandidates rows)).map (fun g =>
        isortBy (fun r s => decide (r.created_at ≤ s.created_at))
          (g.map (fun i => (dupCandidates rows).getD i default)))) := rfl
  have hperm : (findDuplicates rows).Perm ((dupGroupsIdx (dupCandidates rows)).map (fun g =>
      isortBy (fun r s => decide (r.created_at ≤ s.created_at))
        (g.map (fun i => (dupCandidates rows).getD i default)))) := by
    rw [hFD]
    exact isortBy_perm _ _
  have hmemchar : ∀ g ∈ findDuplicates rows, ∃ gi ∈ dupGroupsIdx (dupCandidates rows),
      isortBy (fun r s => decide (r.created_at ≤ s.created_at))
        (gi.map (fun i => (dupCandidates rows).getD i default)) = g := by
    intro g hg
    have hm := hperm.mem_iff.mp hg
    obtain ⟨gi, hgi, heq⟩ := List.mem_map.mp hm
    exact ⟨gi, hgi, heq⟩
  refine ⟨⟨hperm, ?_, ?_, ?_, ?_⟩, hA, hB, hC⟩
  · -- groups sorted by size descending
    have hs := isortBy_sorted (fun (g h : List MediaRow) => decide (h.length ≤ g.length))
      (fun a b => by
        rcases Nat.le_total b.length a.length with h | h
        · exact Or.inl (decide_eq_true h)
        · exact Or.inr (decide_eq_true h))
      (fun a b c h1 h2 => decide_eq_true
        (Nat.le_trans (of_decide_eq_true h2) (of_decide_eq_true h1)))
      ((dupGroupsIdx (dupCandidates rows)).map (fun g =>
        isortBy (fun r s => decide (r.created_at ≤ s.created_at))
          (g.map (fun i => (dupCandidates rows).getD i default))))
    rw [← hFD] at hs
    exact hs.imp (fun h => of_decide_eq_true h)
  · -- each returned group sorted by created_at ascending
    intro g hg
    obtain ⟨gi, hgi, heq⟩ := hmemchar g hg
    rw [← heq]
    have hs := isortBy_sorted (fun (r s : MediaRow) => decide (r.created_at ≤ s.created_at))
      (fun a b => by
        rcases Int.le_total a.created_at b.created_at with h | h
        · exact Or.inl (decide_eq_true h)
        · exact Or.inr (decide_eq_true h))
      (fun a b c h1 h2 => decide_eq_true
        (le_trans (of_decide_eq_true h1) (of_decide_eq_true h2)))
      (gi.map (fun i => (dupCandidates rows).getD i default))
    exact hs.imp (fun h => of_decide_eq_true h)
  · -- only groups of size ≥ 2 are returned
    intro g hg
    obtain ⟨gi, hgi, heq⟩ := hmemchar g hg
    have hlen : g.length = gi.length := by
      rw [← heq, (isortBy_perm _ _).length_eq, List.length_map]
    rw [hlen]
    exact (hA gi hgi).1
  · -- each returned group is a permutation of a materialized index group
    intro g hg
    obtain ⟨gi, hgi, heq⟩ := hmemchar g hg
    refine ⟨gi, hgi, ?_⟩
    rw [← heq]
    exact isortBy_perm _ _

/-! ## Theorems for C8 -/

/-- The argmax fold never decreases the running score, bounds every
scanned score, and either returns its accumulator or the entry of some
scanned cover. -/
theorem bestMatchFold_spec (s : List ℚ → ℚ) (l : List (Nat × List ℚ)) :
    ∀ acc : Option Nat × ℚ,
      acc.2 ≤ (bestMatchFold s l acc).2 ∧
      (∀ pe ∈ l, s pe.2 ≤ (bestMatchFold s l acc).2) ∧
      (bestMatchFold s l acc = acc ∨
        ∃ pe ∈ l, bestMatchFold s l acc = (some pe.1, s pe.2)) := by
  induction l with
  | nil =>
    intro acc
    exact ⟨le_refl _, fun pe hpe => absurd hpe (List.not_mem_nil pe), Or.inl rfl⟩
  | cons pe rest ih =>
    intro acc
    by_cases hlt : acc.2 < s pe.2
    · have h := ih (some pe.1, s pe.2)
      rw [bestMatchFold, if_pos hlt]
      refine ⟨le_trans (le_of_lt hlt) h.1, ?_, ?_⟩
      · intro qe hqe
        rcases List.mem_cons.mp hqe with hq | hq
        · subst hq; exact h.1
        · exact h.2.1 qe hq
      · rcases h.2.2 with h2 | ⟨qe, hqe, h2⟩
        · exact Or.inr ⟨pe, List.mem_cons_self _ _, h2⟩
        · exact Or.inr ⟨qe, List.mem_cons_of_mem _ hqe, h2⟩
    · have h := ih acc
      rw [bestMatchFold, if_neg hlt]
      refine ⟨h.1, ?_, ?_⟩
      · intro qe hqe
        rcases List.mem_cons.mp hqe with hq | hq
        · subst hq; exact le_trans (le_of_not_lt hlt) h.1
        · exact h.2.1 qe hq
      · rcases h.2.2 with h2 | ⟨qe, hqe, h2⟩
        · exact Or.inl h2
        · exact Or.inr ⟨qe, List.mem_cons_of_mem _ hqe, h2⟩

/-- **C8**: storing a face embedding whose similarity to every existing
person's cover embedding is strictly below the 0.5 threshold (in
particular when no persons exist) appends exactly one new person named
`Person {id}` with this face as its cover — the person count strictly
increases by 1; when some cover strictly exceeds the threshold the face
is assigned to a best-matching person (its similarity is maximal among
all covers) and the person count is unchanged.  In both cases the face
row records the returned person id. -/
theorem face_clustering_spec (sim : List ℚ → List ℚ → ℚ) (db : FaceDB) (emb : List ℚ)
    (faceId nextId : Nat) :
    ((∀ pe ∈ coverEmbeddings db, sim emb pe.2 < 1 / 2) →
      ((storeFaceEmbedding sim db faceId emb nextId).1.persons.length =
         db.persons.length + 1 ∧
       (storeFaceEmbedding sim db faceId emb nextId).2 = nextId ∧
       ∃ ps, (storeFaceEmbedding sim db faceId emb nextId).1.persons =
           ps ++ [{ pid := nextId, name := "Person " ++ toString nextId,
                    cover_face_id := some faceId }] ∧
         ps.length = db.persons.length)) ∧
    ((∃ pe ∈ coverEmbeddings db, 1 / 2 < sim emb pe.2) →
      ((storeFaceEmbedding sim db faceId emb nextId).1.persons.length =
         db.persons.length ∧
       ∃ pe ∈ coverEmbeddings db,
         (storeFaceEmbedding sim db faceId emb nextId).2 = pe.1 ∧
         1 / 2 < sim emb pe.2 ∧
         ∀ qe ∈ coverEmbeddings db, sim emb qe.2 ≤ sim emb pe.2)) ∧
    (storeFaceEmbedding sim db faceId emb nextId).1.faces =
      db.faces.map (fun f =>
        if f.fid == faceId
        then { f with embedding := some emb,
                      person_id := some (storeFaceEmbedding sim db faceId emb nextId).2 }
        else f) := by
  have hfold := bestMatchFold_spec (fun e => sim emb e) (coverEmbeddings db) (none, -1)
  refine ⟨?_, ?_, rfl⟩
  · intro hbelow
    have hle : (bestMatchFold (fun e => sim emb e) (coverEmbeddings db) (none, -1)).2 ≤ 1 / 2 := by
      rcases hfold.2.2 with h2 | ⟨pe, hpe, h2⟩
      · rw [h2]; norm_num
      · rw [h2]; exact le_of_lt (hbelow pe hpe)
    have hcond : ¬ (1 / 2 : ℚ) <
        (bestMatchFold (fun e => sim emb e) (coverEmbeddings db) (none, -1)).2 :=
      not_lt_of_le hle
    have hm : matchFaceToPerson sim db emb nextId =
        (nextId, db.persons ++ [{ pid := nextId, name := "Person " ++ toString nextId,
                                  cover_face_id := none }]) := by
      rw [matchFaceToPerson, if_neg hcond]
    refine ⟨?_, ?_, ?_⟩
    · show ((matchFaceToPerson sim db emb nextId).2.map _).length = _
      rw [hm]
      simp
    · show (matchFaceToPerson sim db emb nextId).1 = nextId
      rw [hm]
    · refine ⟨(db.persons.map (fun p =>
        if p.pid == (matchFaceToPerson sim db emb nextId).1 && p.cover_face_id == none
        then { p with cover_face_id := some faceId } else p)), ?_, by simp⟩
      show (matchFaceToPerson sim db emb nextId).2.map _ = _
      conv_lhs => rw [hm]
      rw [hm]
      simp
  · rintro ⟨pe, hpe, hgt⟩
    have hcond : (1 / 2 : ℚ) <
        (bestMatchFold (fun e => sim emb e) (coverEmbeddings db) (none, -1)).2 :=
      lt_of_lt_of_le hgt (hfold.2.1 pe hpe)
    have hm : matchFaceToPerson sim db emb nextId =
        ((bestMatchFold (fun e => sim emb e) (coverEmbeddings db) (none, -1)).1.getD 0,
          db.persons) := by
      rw [matchFaceToPerson, if_pos hcond]
    constructor
    · show ((matchFaceToPerson sim db emb nextId).2.map _).length = _
      rw [hm]
      simp
    · rcases hfold.2.2 with h2 | ⟨qe, hqe, h2⟩
      · exfalso
        rw [h2] at hcond
        norm_num at hcond
      · refine ⟨qe, hqe, ?_, ?_, ?_⟩
        · show (matchFaceToPerson sim db emb nextId).1 = qe.1
          rw [hm, h2]
          rfl
        · have := hfold.2.1 qe hqe
          rw [h2] at hcond
          exact hcond
        · intro re hre
          have := hfold.2.1 re hre
          rw [h2] at this
          exact this

/-- Witness for C8 (new-person branch) at a one-person store whose cover
similarity to the new embedding is 0 under the exact dot product. -/
theorem face_clustering_spec_witness :
    (storeFaceEmbedding dotQ
      { persons := [{ pid := 1, name := "Person 1", cover_face_id := some 10 }],
        faces := [{ fid := 10, embedding := some [1, 0], person_id := some 1 }] }
      11 [0, 1] 2).1.persons.length =
    ({ persons := [{ pid := 1, name := "Person 1", cover_face_id := some 10 }],
       faces := [{ fid := 10, embedding := some [1, 0], person_id := some 1 }] } :
      FaceDB).persons.length + 1 :=
  ((face_clustering_spec dotQ
    { persons := [{ pid := 1, name := "Person 1", cover_face_id := some 10 }],
      faces := [{ fid := 10, embedding := some [1, 0], person_id := some 1 }] }
    [0, 1] 11 2).1 (by
      intro pe hpe
      have hc : coverEmbeddings
          { persons := [{ pid := 1, name := "Person 1", cover_face_id := some 10 }],
            faces := [{ fid := 10, embedding := some [1, 0], person_id := some 1 }] } =
          [(1, [1, 0])] := rfl
      rw [hc] at hpe
      rcases List.mem_singleton.mp hpe with rfl
      show dotQ [0, 1] [1, 0] < 1 / 2
      norm_num [dotQ])).1

/-! ## Theorems for C9 -/

/-- Unwrapping a wrap of the master key with the secret that produced it
recovers the master key. -/
theorem unwrap_wrap (kdf : List Nat → List Nat → List Nat)
    (enc : List Nat → List Nat → List Nat → List Nat → List Nat)
    (dec : List Nat → List Nat → List Nat → List Nat → Option (List Nat))
    (secret salt nonce mk : List Nat)
    (hsalt : salt.length = 16) (hnonce : nonce.length = 12) (hmk : mk.length = 32)
    (hcorr : ∀ n a m, dec (kdf secret salt) n a (enc (kdf secret salt) n a m) = some m) :
    unwrapMasterKey kdf dec secret (wrapMasterKey kdf enc secret salt nonce mk) = .ok mk := by
  rw [unwrapMasterKey]
  rw [if_neg (by simp [wrapMasterKey, hsalt]), if_neg (by simp [wrapMasterKey, hnonce])]
  rw [show (wrapMasterKey kdf enc secret salt nonce mk).ciphertext =
    enc (kdf secret salt) nonce [] mk from rfl]
  rw [show (wrapMasterKey kdf enc secret salt nonce mk).salt = salt from rfl,
    show (wrapMasterKey kdf enc secret salt nonce mk).nonce = nonce from rfl]
  rw [hcorr]
  simp [hmk]

/-- **C9**: a freshly initialized encrypted vault yields the same
generated 32-byte master key through both unlock paths: unwrapping the
passphrase wrap, and verifying the recovery key then unwrapping the
recovery wrap via `recover_and_rewrap`. -/
theorem recovery_roundtrip (kdf : List Nat → List Nat → List Nat)
    (enc : List Nat → List Nat → List Nat → List Nat → List Nat)
    (dec : List Nat → List Nat → List Nat → List Nat → Option (List Nat))
    (hashRK : List Char → String) (verifyRK : List Char → String → Bool)
    (passphrase recoveryKey newPassphrase keyId : String)
    (mk s1 n1 s2 n2 s3 n3 : List Nat) (now : Int)
    (hcorr1 : ∀ n a m, dec (kdf (strBytes passphrase) s1) n a
      (enc (kdf (strBytes passphrase) s1) n a m) = some m)
    (hcorr2 : ∀ n a m, dec (kdf (strBytes recoveryKey) s2) n a
      (enc (kdf (strBytes recoveryKey) s2) n a m) = some m)
    (hver : ∀ cs, verifyRK cs (hashRK cs) = true)
    (hpass : ¬ utf8Len (trimChars passphrase.data) < 8)
    (hs1 : s1.length = 16) (hn1 : n1.length = 12)
    (hs2 : s2.length = 16) (hn2 : n2.length = 12) (hmk : mk.length = 32) :
    ∃ b : SecurityBundle,
      newEncrypted kdf enc hashRK passphrase mk s1 n1 s2 n2 recoveryKey keyId now =
        .ok (b, recoveryKey, mk) ∧
      unlockWithPassphrase kdf dec b passphrase = .ok mk ∧
      ∃ b₂, recoverAndRewrap kdf enc dec verifyRK b recoveryKey newPassphrase s3 n3 =
        .ok (b₂, mk) := by
  refine ⟨{ mode := .encrypted, key_id := keyId, created_at := now,
            passphrase_wrap := some (wrapMasterKey kdf enc (strBytes passphrase) s1 n1 mk),
            recovery := some { verifier_phc := hashRK (trimChars recoveryKey.data),
                               wrap := wrapMasterKey kdf enc (strBytes recoveryKey) s2 n2 mk } },
          ?_, ?_, ?_⟩
  · rw [newEncrypted, if_neg hpass]
  · rw [unlockWithPassphrase, if_neg (by simp)]
    exact unwrap_wrap kdf enc dec _ s1 n1 mk hs1 hn1 hmk hcorr1
  · rw [recoverAndRewrap, if_neg (by simp)]
    dsimp only
    rw [hver (trimChars recoveryKey.data)]
    rw [if_neg (by simp)]
    rw [unwrap_wrap kdf enc dec _ s2 n2 mk hs2 hn2 hmk hcorr2]
    exact ⟨_, rfl⟩

/-- Witness for C9 at a concrete passphrase, recovery key and RNG
outputs, with the toy AEAD/KDF/PHC instances. -/
theorem recovery_roundtrip_witness :
    ∃ b : SecurityBundle,
      newEncrypted toyKdf toyEnc toyHash "correct horse battery staple"
        (List.replicate 32 0) (List.replicate 16 0) (List.replicate 12 0)
        (List.replicate 16 1) (List.replicate 12 1) "AAAAA-BBBBB" "kid" 0 =
        .ok (b, "AAAAA-BBBBB", List.replicate 32 0) ∧
      unlockWithPassphrase toyKdf toyDec b "correct horse battery staple" =
        .ok (List.replicate 32 0) ∧
      ∃ b₂, recoverAndRewrap toyKdf toyEnc toyDec toyVerify b "AAAAA-BBBBB" "new passphrase"
        (List.replicate 16 2) (List.replicate 12 2) = .ok (b₂, List.replicate 32 0) :=
  recovery_roundtrip toyKdf toyEnc toyDec toyHash toyVerify
    "correct horse battery staple" "AAAAA-BBBBB" "new passphrase" "kid"
    (List.replicate 32 0) (List.replicate 16 0) (List.replicate 12 0)
    (List.replicate 16 1) (List.replicate 12 1) (List.replicate 16 2) (List.replicate 12 2) 0
    (fun n a m => toyDec_toyEnc _ n a m (by simp [toyKdf]))
    (fun n a m => toyDec_toyEnc _ n a m (by simp [toyKdf]))
    (fun cs => by simp [toyVerify, toyHash])
    (by decide) (by simp) (by simp) (by simp) (by simp) (by simp)

/-! ## Theorems for C10 -/

/-- **C10 (counterexample)**: a passphrase of five two-byte characters has
a trimmed length of 5 characters — fewer than 8 — yet initialization
*succeeds*, because the code checks the UTF-8 byte length (10 here), not
the character count. -/
theorem initialize_encryption_charlen_counterexample :
    ((trimChars "ααααα".data).length < 8) ∧
    (∀ e, initializeEncryption toyKdf toyEnc toyHash ⟨none, none⟩ "ααααα"
        (List.replicate 32 0) (List.replicate 16 0) (List.replicate 12 0)
        (List.replicate 16 1) (List.replicate 12 1) "RK" "kid" 0 ≠ .error e) := by
  refine ⟨by decide, ?_⟩
  intro e
  rw [initializeEncryption, if_neg (by simp [bundleIsEncrypted]),
    newEncrypted, if_neg (by decide)]
  intro hc
  exact Except.noConfusion hc

/-- **C10 (amended)**: for every passphrase whose trimmed UTF-8 *byte*
length is under 8, `initialize_encryption` fails: when no encrypted
bundle exists it fails with the passphrase-length error before any key
material enters the state, and when an encrypted bundle already exists it
fails with the mode-conflict error; in either case no bundle is stored,
no master key installed and no recovery key returned (the error result
carries no state).  (The original claim's "8 characters" is what the
error message says, but the code compares `str::len`, i.e. UTF-8 bytes.) -/
theorem initialize_encryption_short_passphrase (kdf : List Nat → List Nat → List Nat)
    (enc : List Nat → List Nat → List Nat → List Nat → List Nat)
    (hashRK : List Char → String) (st : VaultState) (passphrase : String)
    (mk s1 n1 s2 n2 : List Nat) (recoveryKey keyId : String) (now : Int)
    (hshort : utf8Len (trimChars passphrase.data) < 8) :
    (∃ e, initializeEncryption kdf enc hashRK st passphrase mk s1 n1 s2 n2
      recoveryKey keyId now = .error e) ∧
    (bundleIsEncrypted st.storedBundle = false →
      initializeEncryption kdf enc hashRK st passphrase mk s1 n1 s2 n2 recoveryKey keyId now =
        .error "Passphrase must be at least 8 characters") := by
  constructor
  · by_cases hb : bundleIsEncrypted st.storedBundle = true
    · exact ⟨"Encryption is already enabled", by rw [initializeEncryption, if_pos hb]⟩
    · refine ⟨"Passphrase must be at least 8 characters", ?_⟩
      rw [initializeEncryption, if_neg hb, newEncrypted, if_pos hshort]
  · intro hb
    rw [initializeEncryption, if_neg (by simp [hb]), newEncrypted, if_pos hshort]

/-- Witness for C10's amended theorem at a concrete 5-byte passphrase on
an empty vault state. -/
theorem initialize_encryption_short_passphrase_witness :
    initializeEncryption toyKdf toyEnc toyHash ⟨none, none⟩ "short"
      (List.replicate 32 0) (List.replicate 16 0) (List.replicate 12 0)
      (List.replicate 16 1) (List.replicate 12 1) "RK" "kid" 0 =
      .error "Passphrase must be at least 8 characters" :=
  (initialize_encryption_short_passphrase toyKdf toyEnc toyHash ⟨none, none⟩ "short"
    (List.replicate 32 0) (List.replicate 16 0) (List.replicate 12 0)
    (List.replicate 16 1) (List.replicate 12 1) "RK" "kid" 0 (by decide)).2 (by decide)

/-! ## Theorems for C2 -/

theorem isPrefixL_append_self (p t : List Char) : isPrefixL p (p ++ t) = true := by
  induction p with
  | nil => rfl
  | cons c ps ih => simp [isPrefixL, ih]

theorem findSub_self (p t : List Char) (h : p ≠ []) : findSub p (p ++ t) = some 0 := by
  cases p with
  | nil => exact absurd rfl h
  | cons c ps =>
    have hpre := isPrefixL_append_self (c :: ps) t
    rw [List.cons_append] at hpre
    rw [List.cons_append, findSub, if_pos hpre]

theorem findSub_nil_of_ne (p : List Char) (h : p ≠ []) : findSub p [] = none := by
  unfold findSub
  rw [if_neg h]

theorem digit_not_whitespace (c : Char) (h : c.isDigit = true) : c.isWhitespace = false := by
  by_contra hcon
  rw [Bool.not_eq_false] at hcon
  simp [Char.isWhitespace] at hcon
  rcases hcon with ((h1 | h1) | h1) | h1 <;> subst h1 <;> simp_all

theorem digit_beq_plus (c : Char) (h : c.isDigit = true) : (c == '+') = false := by
  by_contra hcon
  rw [Bool.not_eq_false, beq_iff_eq] at hcon
  subst hcon
  simp_all

theorem digit_beq_left (c d : Char) (hc : c.isDigit = false) (hd : d.isDigit = true) :
    (c == d) = false := by
  by_contra hcon
  rw [Bool.not_eq_false, beq_iff_eq] at hcon
  subst hcon
  rw [hd] at hc
  exact Bool.noConfusion hc

/-- Searching for a pattern whose head is not a digit skips over a block
of digits. -/
theorem findSub_digits_append (c : Char) (ps ds t : List Char) (hc : c.isDigit = false)
    (hds : ∀ d ∈ ds, d.isDigit = true) :
    findSub (c :: ps) (ds ++ t) = (findSub (c :: ps) t).map (ds.length + ·) := by
  induction ds with
  | nil =>
    cases h : findSub (c :: ps) t <;> simp [h]
  | cons d rest ih =>
    have hne : (c == d) = false := digit_beq_left c d hc (hds d (by simp))
    have hpre : isPrefixL (c :: ps) (d :: (rest ++ t)) = false := by
      rw [isPrefixL, hne, Bool.false_and]
    rw [List.cons_append, findSub, hpre, if_neg (by simp),
      ih (fun x hx => hds x (by simp [hx]))]
    cases h : findSub (c :: ps) t <;> simp [h]
    omega

theorem takeDigits_self (l : List Char) (h : ∀ c ∈ l, c.isDigit = true) :
    takeDigits l = l := by
  induction l with
  | nil => rfl
  | cons c rest ih =>
    unfold takeDigits at *
    rw [List.takeWhile_cons, if_pos (by rw [h c (by simp)]), ih (fun x hx => h x (by simp [hx]))]

theorem takeDigits_append (ds : List Char) (x : Char) (t : List Char)
    (hds : ∀ c ∈ ds, c.isDigit = true) (hx : x.isDigit = false) :
    takeDigits (ds ++ x :: t) = ds := by
  induction ds with
  | nil => simp [takeDigits, List.takeWhile_cons, hx]
  | cons d rest ih =>
    unfold takeDigits at *
    rw [List.cons_append, List.takeWhile_cons, if_pos (by rw [hds d (by simp)]),
      ih (fun c hc => hds c (by simp [hc]))]

theorem takeDigits_nil (l : List Char) (h : ∀ c ∈ l, c.isDigit = false) :
    takeDigits l = [] := by
  cases l with
  | nil => rfl
  | cons c rest => simp [takeDigits, List.takeWhile_cons, h c (by simp)]

theorem dropWhile_ws_eq_self (l : List Char) (h : ∀ c ∈ l, c.isDigit = true) :
    l.dropWhile (·.isWhitespace) = l := by
  cases l with
  | nil => rfl
  | cons c rest =>
    rw [List.dropWhile_cons, if_neg (by rw [digit_not_whitespace c (h c (by simp))]; simp)]

theorem trimChars_subset (l : List Char) : trimChars l ⊆ l := by
  intro c hc
  unfold trimChars at hc
  rw [List.mem_reverse] at hc
  have h1 := (List.dropWhile_sublist (fun c : Char => c.isWhitespace)).subset hc
  rw [List.mem_reverse] at h1
  exact (List.dropWhile_sublist (fun c : Char => c.isWhitespace)).subset h1

theorem trimChars_digits (ds : List Char) (h : ∀ c ∈ ds, c.isDigit = true) :
    trimChars ds = ds := by
  unfold trimChars
  rw [dropWhile_ws_eq_self ds h,
    dropWhile_ws_eq_self ds.reverse (fun c hc => h c (List.mem_reverse.mp hc)),
    List.reverse_reverse]

theorem parseU64_digits (ds : List Char) (hne : ds ≠ [])
    (hds : ∀ c ∈ ds, c.isDigit = true) (hlt : digitsVal ds < 2 ^ 64) :
    parseU64 ds = some (digitsVal ds) := by
  cases ds with
  | nil => exact absurd rfl hne
  | cons d rest =>
    have hall : (d :: rest).all (·.isDigit) = true := by
      rw [List.all_eq_true]
      intro c hc
      exact hds c hc
    rw [parseU64, digit_beq_plus d (hds d (by simp)), if_neg (by simp), parseU64Digits,
      if_neg (by simp), if_pos hall, if_pos hlt]

theorem parseU64Digits_no_digit (ds : List Char) (h : ∀ c ∈ ds, c.isDigit = false) :
    parseU64Digits ds = none := by
  cases ds with
  | nil => rfl
  | cons d rest =>
    have : (d :: rest).all (·.isDigit) = false := by
      rw [List.all_eq_false]
      exact ⟨d, by simp, by rw [h d (by simp)]; simp⟩
    rw [parseU64Digits, if_neg (by simp), this, if_neg (by simp)]

theorem parseU64_no_digit (cs : List Char) (h : ∀ c ∈ cs, c.isDigit = false) :
    parseU64 cs = none := by
  cases cs with
  | nil => rfl
  | cons c rest =>
    rw [parseU64]
    by_cases hp : (c == '+') = true
    · rw [if_pos hp]
      exact parseU64Digits_no_digit rest (fun x hx => h x (by simp [hx]))
    · rw [if_neg hp]
      exact parseU64Digits_no_digit _ h

/-- **C2 (counterexample)**: the string `wait of 42 seconds` matches the
third documented pattern with N = 42, yet the parser returns no wait at
all, because every pattern is gated on the substring `FLOOD_WAIT`. -/
theorem parse_flood_wait_third_pattern_unguarded :
    parseFloodWaitS "wait of 42 seconds" = none := by decide

/-- **C2 (amended)**: for any digit string N (below `u64::MAX`):
`FLOOD_WAIT (N)` and `FLOOD_WAIT_N` parse to N; `wait of N seconds`
parses to N when the string also contains `FLOOD_WAIT` (without it the
parser extracts nothing — that is the correction); and any string that
contains `FLOOD_WAIT` but no digit yields the 60-second default. -/
theorem parse_flood_wait_spec (ds : List Char) (hne : ds ≠ [])
    (hds : ∀ c ∈ ds, c.isDigit = true) (hlt : digitsVal ds < 2 ^ 64) :
    parseFloodWait ("FLOOD_WAIT (".data ++ ds ++ [')']) = some (digitsVal ds) ∧
    parseFloodWait ("FLOOD_WAIT_".data ++ ds) = some (digitsVal ds) ∧
    parseFloodWait ("FLOOD_WAIT wait of ".data ++ ds ++ " seconds".data) =
      some (digitsVal ds) ∧
    (∀ err, containsSub "FLOOD_WAIT".data err = true → (∀ c ∈ err, c.isDigit = false) →
      parseFloodWait err = some 60) := by
  refine ⟨?_, ?_, ?_, ?_⟩
  · -- pattern 1: "FLOOD_WAIT (N)"
    have hcont : containsSub "FLOOD_WAIT".data ("FLOOD_WAIT (".data ++ ds ++ [')']) = true := by
      have h0 : "FLOOD_WAIT (".data ++ ds ++ [')'] =
          "FLOOD_WAIT".data ++ ([' ', '('] ++ (ds ++ [')'])) := by
        simp [List.append_assoc]
      rw [containsSub, h0, findSub_self _ _ (by decide)]
      rfl
    have hfind1 : findSub "FLOOD_WAIT (".data ("FLOOD_WAIT (".data ++ ds ++ [')']) = some 0 := by
      rw [List.append_assoc, findSub_self _ _ (by decide)]
    have hdrop : ("FLOOD_WAIT (".data ++ ds ++ [')']).drop 12 = ds ++ [')'] := by
      rw [List.append_assoc]
      have h12 : ("FLOOD_WAIT (".data).length = 12 := rfl
      rw [← h12, List.drop_left]
    have hclose : findSub [')'] (ds ++ [')']) = some ds.length := by
      rw [findSub_digits_append ')' [] ds [')'] (by decide) hds]
      rfl
    have htake : (ds ++ [')']).take ds.length = ds := List.take_left ds [')']
    unfold parseFloodWait
    rw [hcont, if_pos rfl, hfind1]
    rw [Option.some_bind]
    dsimp only
    rw [Nat.zero_add, hdrop, hclose, Option.some_bind, htake, trimChars_digits ds hds,
      parseU64_digits ds hne hds hlt]
  · -- pattern 2: "FLOOD_WAIT_N"
    have hcont : containsSub "FLOOD_WAIT".data ("FLOOD_WAIT_".data ++ ds) = true := by
      have h0 : "FLOOD_WAIT_".data ++ ds = "FLOOD_WAIT".data ++ ('_' :: ds) := by
        simp [List.append_assoc]
      rw [containsSub, h0, findSub_self _ _ (by decide)]
      rfl
    have hnot1 : findSub "FLOOD_WAIT (".data ("FLOOD_WAIT_".data ++ ds) =
        (findSub "FLOOD_WAIT (".data ds).map (· + 11) := by
      simp +decide [findSub, isPrefixL]
    have hds_none : findSub "FLOOD_WAIT (".data ds = none := by
      rw [← List.append_nil ds, findSub_digits_append 'F' _ ds [] (by decide) hds,
        findSub_nil_of_ne _ (by decide)]
      rfl
    have hfind2 : findSub "FLOOD_WAIT_".data ("FLOOD_WAIT_".data ++ ds) = some 0 :=
      findSub_self _ _ (by decide)
    have hdrop : ("FLOOD_WAIT_".data ++ ds).drop 11 = ds := by
      have h11 : ("FLOOD_WAIT_".data).length = 11 := rfl
      rw [← h11, List.drop_left]
    unfold parseFloodWait
    rw [hcont, if_pos rfl, hnot1, hds_none]
    simp only [Option.map_none', Option.none_bind]
    rw [hfind2, Option.some_bind, Nat.zero_add, hdrop, takeDigits_self ds hds,
      parseU64_digits ds hne hds hlt]
  · -- pattern 3: "wait of N seconds" (with FLOOD_WAIT present)
    have hcont : containsSub "FLOOD_WAIT".data
        ("FLOOD_WAIT wait of ".data ++ ds ++ " seconds".data) = true := by
      have h0 : "FLOOD_WAIT wait of ".data ++ ds ++ " seconds".data =
          "FLOOD_WAIT".data ++ (" wait of ".data ++ (ds ++ " seconds".data)) := by
        simp [List.append_assoc]
      rw [containsSub, h0, findSub_self _ _ (by decide)]
      rfl
    have hnot1 : findSub "FLOOD_WAIT (".data
        ("FLOOD_WAIT wait of ".data ++ ds ++ " seconds".data) =
        ((findSub "FLOOD_WAIT (".data " seconds".data).map (ds.length + ·)).map (· + 19) := by
      rw [List.append_assoc]
      have hmid : findSub "FLOOD_WAIT (".data (ds ++ " seconds".data) =
          (findSub "FLOOD_WAIT (".data " seconds".data).map (ds.length + ·) :=
        findSub_digits_append 'F' _ ds _ (by decide) hds
      simp +decide [findSub, isPrefixL, hmid]
    have hnot2 : findSub "FLOOD_WAIT_".data
        ("FLOOD_WAIT wait of ".data ++ ds ++ " seconds".data) =
        ((findSub "FLOOD_WAIT_".data " seconds".data).map (ds.length + ·)).map (· + 19) := by
      rw [List.append_assoc]
      have hmid : findSub "FLOOD_WAIT_".data (ds ++ " seconds".data) =
          (findSub "FLOOD_WAIT_".data " seconds".data).map (ds.length + ·) :=
        findSub_digits_append 'F' _ ds _ (by decide) hds
      simp +decide [findSub, isPrefixL, hmid]
    have hfind3 : findSub "wait of ".data
        ("FLOOD_WAIT wait of ".data ++ ds ++ " seconds".data) = some 11 := by
      rw [List.append_assoc]
      have hself : findSub "wait of ".data ("wait of ".data ++ (ds ++ " seconds".data)) =
          some 0 := findSub_self _ _ (by decide)
      have h0 : "FLOOD_WAIT wait of ".data ++ (ds ++ " seconds".data) =
          "FLOOD_WAIT ".data ++ ("wait of ".data ++ (ds ++ " seconds".data)) := by
        simp [List.append_assoc]
      rw [h0]
      simp +decide [findSub, isPrefixL, hself]
    have hdrop : ("FLOOD_WAIT wait of ".data ++ ds ++ " seconds".data).drop 19 =
        ds ++ " seconds".data := by
      rw [List.append_assoc]
      have h19 : ("FLOOD_WAIT wait of ".data).length = 19 := rfl
      rw [← h19, List.drop_left]
    have htake : takeDigits (ds ++ " seconds".data) = ds := by
      have h0 : " seconds".data = ' ' :: "seconds".data := rfl
      rw [h0]
      exact takeDigits_append ds ' ' _ hds (by decide)
    unfold parseFloodWait
    rw [hcont, if_pos rfl, hnot1, hnot2]
    have hsec1 : findSub "FLOOD_WAIT (".data " seconds".data = none := by decide
    have hsec2 : findSub "FLOOD_WAIT_".data " seconds".data = none := by decide
    rw [hsec1, hsec2]
    simp only [Option.map_none', Option.none_bind]
    rw [hfind3, Option.some_bind]
    rw [hdrop, htake, parseU64_digits ds hne hds hlt]
  · -- no digits at all: default 60
    intro err hcont hnod
    unfold parseFloodWait
    rw [hcont, if_pos rfl]
    have h1 : (findSub "FLOOD_WAIT (".data err).bind (fun start =>
        (findSub [')'] (err.drop (start + 12))).bind
          (fun en => parseU64 (trimChars ((err.drop (start + 12)).take en)))) = none := by
      rcases findSub "FLOOD_WAIT (".data err with _ | st
      · rfl
      · rw [Option.some_bind]
        rcases findSub [')'] (err.drop (st + 12)) with _ | en
        · rfl
        · rw [Option.some_bind]
          exact parseU64_no_digit _ (fun c hc => hnod c
            (List.drop_subset _ _ (List.take_subset _ _ (trimChars_subset _ hc))))
    have h2 : (findSub "FLOOD_WAIT_".data err).bind (fun idx =>
        parseU64 (takeDigits (err.drop (idx + 11)))) = none := by
      rcases findSub "FLOOD_WAIT_".data err with _ | idx
      · rfl
      · rw [Option.some_bind]
        rw [takeDigits_nil _ (fun c hc => hnod c (List.drop_subset _ _ hc))]
        rfl
    have h3 : (findSub "wait of ".data err).bind (fun idx =>
        parseU64 (takeDigits (err.drop (idx + 8)))) = none := by
      rcases findSub "wait of ".data err with _ | idx
      · rfl
      · rw [Option.some_bind]
        rw [takeDigits_nil _ (fun c hc => hnod c (List.drop_subset _ _ hc))]
        rfl
    rw [h1, h2, h3]

/-- Witness for C2's amended theorem at N = 42 and a digit-free
`FLOOD_WAIT` string. -/
theorem parse_flood_wait_spec_witness :
    parseFloodWaitS "FLOOD_WAIT (42)" = some 42 ∧
    parseFloodWaitS "FLOOD_WAIT_42" = some 42 ∧
    parseFloodWaitS "FLOOD_WAIT wait of 42 seconds" = some 42 ∧
    parseFloodWaitS "rpc error: FLOOD_WAIT" = some 60 := by
  have h := parse_flood_wait_spec ['4', '2'] (by decide) (by decide) (by decide)
  exact ⟨h.1, h.2.1, h.2.2.1, h.2.2.2 "rpc error: FLOOD_WAIT".data (by decide) (by decide)⟩

/-! ## Theorems for C3 -/

theorem lookupAL_insertAL {κ α : Type} [DecidableEq κ] (l : List (κ × α)) (k d : κ) (v : α) :
    lookupAL (insertAL l k v) d = if k = d then some v else lookupAL l d := by
  induction l with
  | nil =>
    by_cases h : k = d <;> simp [insertAL, lookupAL, h]
  | cons hd tl ih =>
    obtain ⟨k', w⟩ := hd
    by_cases h1 : k' = k
    · subst h1
      by_cases h2 : k' = d
      · subst h2; simp [insertAL, lookupAL]
      · simp [insertAL, lookupAL, h2]
    · by_cases h2 : k' = d
      · subst h2
        have hkd : ¬ k = k' := fun h => h1 h.symm
        simp [insertAL, lookupAL, h1, hkd]
      · simp [insertAL, lookupAL, h1, h2, ih]

theorem ltChars_asymm : ∀ {a b : List Char}, ltChars a b = true → ltChars b a = false
  | [], [] => by simp [ltChars]
  | [], _ :: _ => by intro _; rfl
  | _ :: _, [] => by simp [ltChars]
  | a :: as, b :: bs => by
    intro hab
    unfold ltChars at hab ⊢
    by_cases h1 : a.toNat < b.toNat
    · rw [if_neg (Nat.lt_asymm h1), if_pos h1]
    · by_cases h2 : b.toNat < a.toNat
      · rw [if_neg h1, if_pos h2] at hab
        exact absurd hab (by simp)
      · rw [if_neg h1, if_neg h2] at hab
        rw [if_neg h2, if_neg h1]
        exact ltChars_asymm hab

theorem ltS_asymm {a b : String} (h : ltS a b = true) : ltS b a = false :=
  ltChars_asymm h

/-- The single merge step of `mergeMedia` does not change the lookup at
any other digest. -/
theorem mergeMedia_step_lookup (acc : List (String × MediaMetadata))
    (h d : String) (rm : MediaMetadata) (hkey : h ≠ d) :
    lookupAL (match lookupAL acc h with
      | some lm => if ltS lm.last_modified rm.last_modified then insertAL acc h rm else acc
      | none => insertAL acc h rm) d = lookupAL acc d := by
  rcases lookupAL acc h with _ | lm
  · rw [lookupAL_insertAL, if_neg hkey]
  · dsimp only
    by_cases hlt : ltS lm.last_modified rm.last_modified = true
    · rw [if_pos hlt, lookupAL_insertAL, if_neg hkey]
    · rw [if_neg hlt]

/-- A digest absent from the remote entries is untouched by the merge
fold. -/
theorem mergeMedia_lookup_none (entries : List (String × MediaMetadata))
    (acc : List (String × MediaMetadata)) (d : String)
    (he : lookupAL entries d = none) :
    lookupAL (mergeMedia entries acc) d = lookupAL acc d := by
  induction entries generalizing acc with
  | nil => rfl
  | cons hd rest ih =>
    obtain ⟨h, rm⟩ := hd
    have hkey : h ≠ d := by
      intro hc
      rw [lookupAL, if_pos hc] at he
      exact Option.noConfusion he
    have he' : lookupAL rest d = none := by
      rwa [lookupAL, if_neg hkey] at he
    unfold mergeMedia
    rw [ih _ he', mergeMedia_step_lookup _ _ _ _ hkey]

/-- Lookup after the media merge fold when both sides hold the digest:
per-key last-write-wins, provided the remote digests are unique (a
`HashMap` invariant). -/
theorem mergeMedia_lookup_some (entries : List (String × MediaMetadata))
    (acc : List (String × MediaMetadata)) (d : String) (rm lm : MediaMetadata)
    (hnd : (entries.map Prod.fst).Nodup)
    (he : lookupAL entries d = some rm) (ha : lookupAL acc d = some lm) :
    lookupAL (mergeMedia entries acc) d =
      if ltS lm.last_modified rm.last_modified then some rm else some lm := by
  induction entries generalizing acc with
  | nil => exact Option.noConfusion he
  | cons hd rest ih =>
    obtain ⟨h, rm0⟩ := hd
    simp only [List.map_cons, List.nodup_cons] at hnd
    obtain ⟨hnotin, hnd'⟩ := hnd
    by_cases hkey : h = d
    · subst hkey
      rw [lookupAL, if_pos rfl] at he
      have hrm : rm0 = rm := Option.some.inj he
      have hrest : lookupAL rest h = none := by
        clear ih
        induction rest with
        | nil => rfl
        | cons p ps ihr =>
          obtain ⟨k, v⟩ := p
          simp only [List.map_cons, List.mem_cons] at hnotin
          rw [lookupAL, if_neg (fun he => hnotin (Or.inl he.symm))]
          exact ihr (fun hm => hnotin (Or.inr hm)) (List.Nodup.of_cons hnd')
      unfold mergeMedia
      rw [mergeMedia_lookup_none _ _ _ hrest, ha]
      dsimp only
      rw [hrm]
      by_cases hlt : ltS lm.last_modified rm.last_modified = true
      · rw [if_pos hlt, if_pos hlt, lookupAL_insertAL, if_pos rfl]
      · rw [if_neg hlt, if_neg hlt, ha]
    · rw [lookupAL, if_neg hkey] at he
      unfold mergeMedia
      exact ih _ hnd' he (by rw [mergeMedia_step_lookup _ _ _ _ hkey]; exact ha)

/-- **C3 (counterexample)**: the claim says the reverse merge
`merge(B, A)` yields A's (earlier) values.  In the code the *later*
timestamp wins in both directions: merging the earlier manifest A into the
later B keeps B's rating 5, not A's rating 3. -/
theorem manifest_merge_reverse_keeps_later :
    (lookupAL (mergeFrom
        { version := 1, last_updated := "2026-01-20T11:00:00Z", device_id := "B",
          media := [("h1", { is_favorite := false, rating := 5, albums := [],
                             last_modified := "2026-01-20T11:00:00Z" })], albums := [] }
        { version := 1, last_updated := "2026-01-20T10:00:00Z", device_id := "A",
          media := [("h1", { is_favorite := true, rating := 3, albums := [],
                             last_modified := "2026-01-20T10:00:00Z" })], albums := [] }
        "2026-01-20T12:00:00Z").media "h1").map (fun m => m.rating) = some 5 ∧
    ltS "2026-01-20T10:00:00Z" "2026-01-20T11:00:00Z" = true := by
  constructor
  · rfl
  · decide

/-- **C3 (amended)**: for manifests A and B holding the same digest with
A's entry strictly earlier than B's, *both* merge orders yield B's values
for that digest (per-key last-write-wins is symmetric in outcome; the
original claim's "the reverse merge yields A's values" is false). -/
theorem manifest_merge_lww (A B : SyncManifest) (d : String)
    (ma mb : MediaMetadata) (nowAB nowBA : String)
    (hA : lookupAL A.media d = some ma) (hB : lookupAL B.media d = some mb)
    (hAnd : (A.media.map Prod.fst).Nodup) (hBnd : (B.media.map Prod.fst).Nodup)
    (hlt : ltS ma.last_modified mb.last_modified = true) :
    lookupAL (mergeFrom A B nowAB).media d = some mb ∧
    lookupAL (mergeFrom B A nowBA).media d = some mb := by
  constructor
  · show lookupAL (mergeMedia B.media A.media) d = some mb
    rw [mergeMedia_lookup_some _ _ _ _ _ hBnd hB hA, if_pos hlt]
  · show lookupAL (mergeMedia A.media B.media) d = some mb
    rw [mergeMedia_lookup_some _ _ _ _ _ hAnd hA hB,
      if_neg (by rw [ltS_asymm hlt]; exact Bool.false_ne_true)]

/-- Witness for C3's amended theorem on two concrete one-entry manifests. -/
theorem manifest_merge_lww_witness :
    lookupAL (mergeFrom
        { version := 1, last_updated := "t", device_id := "A",
          media := [("h1", { is_favorite := true, rating := 3, albums := [],
                             last_modified := "2026-01-20T10:00:00Z" })], albums := [] }
        { version := 1, last_updated := "t", device_id := "B",
          media := [("h1", { is_favorite := false, rating := 5, albums := [],
                             last_modified := "2026-01-20T11:00:00Z" })], albums := [] }
        "n1").media "h1" =
      some { is_favorite := false, rating := 5, albums := [],
             last_modified := "2026-01-20T11:00:00Z" } ∧
    lookupAL (mergeFrom
        { version := 1, last_updated := "t", device_id := "B",
          media := [("h1", { is_favorite := false, rating := 5, albums := [],
                             last_modified := "2026-01-20T11:00:00Z" })], albums := [] }
        { version := 1, last_updated := "t", device_id := "A",
          media := [("h1", { is_favorite := true, rating := 3, albums := [],
                             last_modified := "2026-01-20T10:00:00Z" })], albums := [] }
        "n2").media "h1" =
      some { is_favorite := false, rating := 5, albums := [],
             last_modified := "2026-01-20T11:00:00Z" } :=
  manifest_merge_lww _ _ "h1" _ _ "n1" "n2" rfl rfl (by decide) (by decide) (by decide)

/-! ## Theorems for C6 -/

/-- **C6**: enqueueing a path while a row with the same path is `pending`
or `uploading` leaves the queue unchanged; otherwise exactly one new
`pending` row is appended. -/
theorem addToQueue_idempotent (path : String) (now : Int) (queue : List QueueRow) :
    ((∃ r ∈ queue, r.file_path = path ∧ (r.status = "pending" ∨ r.status = "uploading")) →
      addToQueue path now queue = queue) ∧
    ((¬ ∃ r ∈ queue, r.file_path = path ∧ (r.status = "pending" ∨ r.status = "uploading")) →
      addToQueue path now queue = queue ++ [⟨path, "pending", now⟩]) := by
  constructor
  · rintro ⟨r, hr, hpath, hstat⟩
    have hany : queue.any
        (fun r => r.file_path == path && (r.status == "pending" || r.status == "uploading")) = true := by
      rw [List.any_eq_true]
      exact ⟨r, hr, by simp [hpath]; rcases hstat with h | h <;> simp [h]⟩
    simp [addToQueue, hany]
  · intro hno
    have hany : queue.any
        (fun r => r.file_path == path && (r.status == "pending" || r.status == "uploading")) = false := by
      rw [Bool.eq_false_iff]
      intro hc
      rw [List.any_eq_true] at hc
      obtain ⟨r, hr, hb⟩ := hc
      simp only [Bool.and_eq_true, Bool.or_eq_true, beq_iff_eq] at hb
      exact hno ⟨r, hr, hb.1, hb.2⟩
    simp [addToQueue, hany]

/-- Witness for C6 at a concrete queue: a `pending` row for "a.jpg" blocks
re-enqueue, and a fresh path is appended as `pending`. -/
theorem addToQueue_idempotent_witness :
    addToQueue "a.jpg" 7 [⟨"a.jpg", "pending", 3⟩] = [⟨"a.jpg", "pending", 3⟩] :=
  (addToQueue_idempotent "a.jpg" 7 [⟨"a.jpg", "pending", 3⟩]).1
    ⟨⟨"a.jpg", "pending", 3⟩, by simp, rfl, Or.inl rfl⟩

/-! ## Theorems for C7 -/

/-- **C7**: `empty_old_trash` keeps exactly the rows that are not
(`is_deleted` with a `deleted_at` strictly more than 30 days old), i.e. it
deletes exactly the soft-deleted rows older than 30 days, touches no other
row, and never deletes a row that is not `is_deleted`. -/
theorem emptyOldTrash_exact (now : Int) (rows : List MediaRow) :
    (emptyOldTrash now rows).1 = rows.filter (fun r => !isOldTrash now r) ∧
    (∀ r : MediaRow, isOldTrash now r = true ↔
      (r.is_deleted = some true ∧ ∃ t, r.deleted_at = some t ∧ t + 30 * 24 * 60 * 60 < now)) ∧
    (∀ r : MediaRow, r.is_deleted ≠ some true → isOldTrash now r = false) := by
  refine ⟨rfl, fun r => ?_, fun r h => ?_⟩
  · unfold isOldTrash
    constructor
    · intro h
      simp only [Bool.and_eq_true, beq_iff_eq] at h
      refine ⟨h.1, ?_⟩
      rcases hd : r.deleted_at with _ | t
      · rw [hd] at h; simp at h
      · rw [hd] at h
        simp only [decide_eq_true_eq] at h
        exact ⟨t, rfl, by omega⟩
    · rintro ⟨h1, t, ht, hlt⟩
      simp only [Bool.and_eq_true, beq_iff_eq, h1, ht, true_and, decide_eq_true_eq]
      omega
  · unfold isOldTrash
    simp only [Bool.and_eq_false_iff, beq_eq_false_iff_ne]
    exact Or.inl h

/-! ## Theorems for C4 -/

/-- The candidate clause, restated over the row's fields. -/
theorem reconcileCandidate_iff (r : MediaRow) :
    reconcileCandidate r = true ↔
      (r.is_deleted ≠ some true ∧ (∃ s, r.telegram_media_id = some s ∧ s ≠ "") ∧
        r.is_cloud_only ≠ some true) := by
  rcases r with ⟨id, fp, tmi, ca, isd, da, ico, ph⟩
  unfold reconcileCandidate
  rcases tmi with _ | s <;>
    rcases isd with _ | _ | _ <;>
      rcases ico with _ | _ | _ <;>
        simp

theorem reconcileRow_is_deleted (f : String → Bool) (r : MediaRow) :
    (reconcileRow f r).is_deleted = r.is_deleted := by
  unfold reconcileRow; split <;> rfl

theorem reconcileRow_telegram (f : String → Bool) (r : MediaRow) :
    (reconcileRow f r).telegram_media_id = r.telegram_media_id := by
  unfold reconcileRow; split <;> rfl

theorem reconcileRow_path (f : String → Bool) (r : MediaRow) :
    (reconcileRow f r).file_path = r.file_path := by
  unfold reconcileRow; split <;> rfl

/-- **C4 (counterexample)**: the claim says no item other than the
non-deleted/blob-id/file-absent ones has `is_cloud_only` raised after
reconciliation.  A row whose flag was already raised, with no blob id
and an existing local file, keeps the raised flag. -/
theorem reconcile_stale_flag_kept :
    ∃ r ∈ (reconcileCloudOnlyFlags (fun _ => true)
      [{ id := 1, file_path := "p.jpg", telegram_media_id := none, created_at := 0,
         is_deleted := some false, deleted_at := none, is_cloud_only := some true,
         phash := none }]).1,
      r.is_cloud_only = some true ∧ r.telegram_media_id = none ∧
      (fun (_ : String) => true) r.file_path = true := by
  refine ⟨{ id := 1, file_path := "p.jpg", telegram_media_id := none, created_at := 0,
            is_deleted := some false, deleted_at := none, is_cloud_only := some true,
            phash := none }, ?_, rfl, rfl, rfl⟩
  simp [reconcileCloudOnlyFlags, reconcileRow, reconcileCandidate]

/-- **C4 (amended)**: after `reconcile_cloud_only_flags`, (a) every
non-deleted row with a non-empty blob id whose local file is absent has
`is_cloud_only = true`; (b) the pass only *raises* flags, and only on such
rows: any row whose flag ends up raised either already had it raised or is
a non-deleted row with a non-empty blob id and an absent local file.
(The original claim's "no other item has the flag raised" fails because
the pass never clears a pre-existing flag.) -/
theorem reconcile_cloud_only_spec (fsExists : String → Bool) (rows : List MediaRow) :
    (∀ r ∈ (reconcileCloudOnlyFlags fsExists rows).1,
      (r.is_deleted ≠ some true ∧ (∃ s, r.telegram_media_id = some s ∧ s ≠ "") ∧
        fsExists r.file_path = false) →
      r.is_cloud_only = some true) ∧
    (∀ r ∈ rows, (reconcileRow fsExists r).is_cloud_only = some true →
      (r.is_cloud_only = some true ∨
        (r.is_deleted ≠ some true ∧ (∃ s, r.telegram_media_id = some s ∧ s ≠ "") ∧
          fsExists r.file_path = false))) := by
  constructor
  · rintro r hr ⟨hdel, hblob, habs⟩
    simp only [reconcileCloudOnlyFlags, List.mem_map] at hr
    obtain ⟨r₀, _, hr₀⟩ := hr
    subst hr₀
    rw [reconcileRow_is_deleted] at hdel
    rw [reconcileRow_telegram] at hblob
    rw [reconcileRow_path] at habs
    by_cases hflag : r₀.is_cloud_only = some true
    · unfold reconcileRow
      split <;> simp [hflag]
    · have hcand : reconcileCandidate r₀ = true :=
        (reconcileCandidate_iff r₀).2 ⟨hdel, hblob, hflag⟩
      unfold reconcileRow
      rw [if_pos (by rw [hcand, habs]; rfl)]
  · intro r _ hflag
    unfold reconcileRow at hflag
    by_cases hc : (reconcileCandidate r && !fsExists r.file_path) = true
    · right
      rw [Bool.and_eq_true] at hc
      obtain ⟨hcand, habs⟩ := hc
      obtain ⟨h1, h2, _⟩ := (reconcileCandidate_iff r).1 hcand
      exact ⟨h1, h2, by rwa [Bool.not_eq_true'] at habs⟩
    · left
      rw [if_neg hc] at hflag
      exact hflag

/-- Witness for C4's amended theorem at a concrete store: a non-deleted
uploaded row whose file is gone gets the flag raised. -/
theorem reconcile_cloud_only_spec_witness :
    ({ id := 1, file_path := "gone.jpg", telegram_media_id := some "42", created_at := 0,
       is_deleted := some false, deleted_at := none, is_cloud_only := some false,
       phash := none } : MediaRow).is_cloud_only = some false ∧
    ∀ r ∈ (reconcileCloudOnlyFlags (fun _ => false)
      [{ id := 1, file_path := "gone.jpg", telegram_media_id := some "42", created_at := 0,
         is_deleted := some false, deleted_at := none, is_cloud_only := some false,
         phash := none }]).1,
      (r.is_deleted ≠ some true ∧ (∃ s, r.telegram_media_id = some s ∧ s ≠ "") ∧
        (fun (_ : String) => false) r.file_path = false) →
      r.is_cloud_only = some true :=
  ⟨rfl, (reconcile_cloud_only_spec (fun _ => false) _).1⟩

end Wanderer
